import Mathlib

/-!
Shallow embedding of the QuasiPiler `reader` component
(`src/include/reader.hpp`, `src/src/reader.cpp`) and proofs about the
claims on its tokenizer, buffering and seeking behaviour.

Bytes are modelled as `Nat` (values 0..255), byte sequences as `List Nat`.
`line`/`col` are C++ `int`s, modelled as `Int` (the claims stay far away
from any overflow boundary).  C++ exceptions are modelled with `Except`:
a thrown `std::runtime_error` built by `throw_message` becomes an
`RError` value carrying the message string; the post-throw object state
is discarded (no claim inspects the reader after an exception).

The character-consuming loops of the tokenizer are defined with an
explicit fuel argument; `nextToken` supplies a fuel that is proved (for
buffer-backed readers) to be always sufficient, so `RError.fuelOut`
never escapes on the states the claims quantify over.
-/

namespace QP

/-- `enum class token_kind` from `reader.hpp`. -/
inductive TokenKind where
  | eof
  | open_bracket
  | close_bracket
  | separator
  | keyword
  | string
  | whitespace
  | integer
  | floating
  | special_character
deriving DecidableEq, Repr

/-- `struct token` from `reader.hpp`: kind plus 0-based start position. -/
structure Token where
  kind : TokenKind
  line : Int
  col : Int
deriving DecidableEq, Repr

/-- Error values for the `std::runtime_error`s the reader throws.
The C++ code throws a single exception type; the spec's taxonomy
(NumberFormatError / StringError / SeekError) is keyed by the message,
so each constructor carries the exact message string from the source.
`fuelOut` is an artefact of the fuelled loops, proved unreachable on
buffer-backed readers. -/
inductive RError where
  | numberFormat (msg : String)
  | stringErr (msg : String)
  | seekErr (msg : String)
  | fuelOut
deriving DecidableEq, Repr

/-- The `reader` object state (private fields of `class reader`).
`fileOpen`/`fileData`/`filePos`/`fileEof`/`fileFail` model the
`std::ifstream ifs` member: whether a file is open, the file's bytes,
the stream read position (`tellg`), and the stream's eofbit/failbit. -/
structure Reader where
  fileOpen : Bool := false
  fileData : List Nat := []
  filePos : Nat := 0
  fileEof : Bool := false
  fileFail : Bool := false
  maxBufferSize : Nat := 0
  buffer : List Nat := []
  offset : Int := -1
  col : Int := -1
  line : Int := -1
  shift : Nat := 0
deriving DecidableEq, Repr

/-- `std::isdigit` under the C locale, on a byte. -/
def isdigit (b : Nat) : Bool := 48 ≤ b && b ≤ 57

/-- `std::isalpha` under the C locale, on a byte. -/
def isalpha (b : Nat) : Bool := (65 ≤ b && b ≤ 90) || (97 ≤ b && b ≤ 122)

/-- `std::isalnum` under the C locale, on a byte. -/
def isalnum (b : Nat) : Bool := isalpha b || isdigit b

/-- `std::isspace` under the C locale: space, \t, \n, \v, \f, \r. -/
def isspace (b : Nat) : Bool :=
  b == 32 || b == 9 || b == 10 || b == 11 || b == 12 || b == 13

/-- `isxdigit` under the C locale, on a byte. -/
def isxdigit (b : Nat) : Bool :=
  isdigit b || (65 ≤ b && b ≤ 70) || (97 ≤ b && b ≤ 102)

/-- Numeric value of a hex digit byte (`std::stoi(hex, nullptr, 16)`
per digit). -/
def hexVal (b : Nat) : Nat :=
  if 48 ≤ b && b ≤ 57 then b - 48
  else if 65 ≤ b && b ≤ 70 then b - 55
  else if 97 ≤ b && b ≤ 102 then b - 87
  else 0

/-- The bytes `std::wstring_convert<std::codecvt_utf8<char32_t>>`
produces for one code point below 0x10000: its UTF-8-style multi-byte
encoding (surrogate values are encoded like any other value, which is
the behaviour the repository's spec documents as an open question). -/
def utf8Encode (cp : Nat) : List Nat :=
  if cp < 128 then [cp]
  else if cp < 2048 then [192 + cp / 64, 128 + cp % 64]
  else [224 + cp / 4096, 128 + cp / 64 % 64, 128 + cp % 64]

/-- `reader::valid`: `!buffer.empty() && shift < buffer.size()`. -/
def valid (r : Reader) : Bool :=
  !r.buffer.isEmpty && r.shift < r.buffer.length

/-- `reader::peek`: `buffer[shift]`.  `std::string::operator[]` at
index `size()` returns the null character, which `getD _ _ 0` also
yields; indices beyond that are never peeked on any execution path. -/
def peek (r : Reader) : Nat := r.buffer.getD r.shift 0

/-- `reader::refill_buffer`.  The stream state (eofbit/failbit) follows
the C++ iostream rules: `read` extracts `min(max_buffer_size,
remaining)` bytes and sets eofbit and failbit when it stores fewer than
requested; with failbit already set the read extracts nothing.
The destination of `ifs.read(buffer.data(), max_buffer_size)` is a
`std::string` that was never resized to `max_buffer_size`: bytes written
past `buffer.size()` are outside the string object, so the observable
string keeps its size, and a later `resize` that grows appends null
characters (the C++-standard observable behaviour of the string). -/
def refillBuffer (r : Reader) : Reader :=
  if !r.fileOpen || r.fileEof then r
  else if r.fileFail then
    let buf := if 0 < r.maxBufferSize then [] else r.buffer
    { r with offset := -1, buffer := buf, shift := 0 }
  else
    let bytesRead := (r.fileData.drop r.filePos).take r.maxBufferSize
    let k := bytesRead.length
    let content := (bytesRead ++ r.buffer.drop k).take r.buffer.length
    let buf := if k < r.maxBufferSize
               then content.take k ++ List.replicate (k - content.length) 0
               else content
    { r with offset := (r.filePos : Int), filePos := r.filePos + k,
             fileEof := decide (k < r.maxBufferSize),
             fileFail := decide (k < r.maxBufferSize),
             buffer := buf, shift := 0 }

/-- `reader::next`: advance `shift` and `col`, refilling when the shift
reaches the window length.  (The debug `assert(!buffer.empty())` is a
no-op in release builds.) -/
def next (r : Reader) : Reader :=
  let r1 : Reader := { r with shift := r.shift + 1, col := r.col + 1 }
  if r1.buffer.length ≤ r1.shift then refillBuffer r1 else r1

/-- `reader::get`: return the current byte and advance. -/
def get (r : Reader) : Nat × Reader := (peek r, next r)

/-- `reader::reader(std::string&)`: adopt the bytes as the window;
`line`/`col` become 0 only when the buffer is non-empty (they keep
their `-1` field initializers otherwise). -/
def ofString (s : List Nat) : Reader :=
  if s.isEmpty then { buffer := s }
  else { buffer := s, line := 0, col := 0 }

/-- `reader::reader(const std::filesystem::path&, std::streamsize)` on a
file that opens successfully: store `max_buffer_size`, `seekg(0)`,
`offset = tellg()`, then an initial `refill_buffer()`.  Note that this
constructor never touches `line`/`col`: they keep their `-1` field
initializers. -/
def ofFile (data : List Nat) (bufferSize : Nat) : Reader :=
  refillBuffer
    { fileOpen := true, fileData := data, filePos := 0,
      maxBufferSize := bufferSize, offset := 0 }

/-- One body step of the `read_whitespace` loop on the current byte:
the newline bookkeeping (`++line; col = -1;`) followed by the
consumption inside `word += get()`. -/
def wsStep (r : Reader) : Reader :=
  let r1 := if peek r == 10 then { r with line := r.line + 1, col := -1 } else r
  next r1

/-- `reader::read_whitespace`: consume the maximal whitespace run,
returning the consumed bytes (the cleared-then-filled `word`). -/
def readWhitespace (fuel : Nat) (r : Reader) : List Nat × Reader :=
  match fuel with
  | 0 => ([], r)
  | fuel + 1 =>
    if valid r && isspace (peek r) then
      let c := peek r
      let r2 := wsStep r
      let p := readWhitespace fuel r2
      (c :: p.1, p.2)
    else ([], r)

/-- The `while (valid() && (isalnum(peek()) || peek() == '_'))` tail of
`reader::read_keyword`. -/
def keywordLoop (fuel : Nat) (r : Reader) : List Nat × Reader :=
  match fuel with
  | 0 => ([], r)
  | fuel + 1 =>
    if valid r && (isalnum (peek r) || peek r == 95) then
      let c := peek r
      let r2 := next r
      let p := keywordLoop fuel r2
      (c :: p.1, p.2)
    else ([], r)

/-- `reader::read_keyword`: a do/while that consumes the first byte
unconditionally (the caller established the guard) and then the
identifier tail. -/
def readKeywordRun (fuel : Nat) (r : Reader) : List Nat × Reader :=
  let c := peek r
  let r1 := next r
  let p := keywordLoop fuel r1
  (c :: p.1, p.2)

/-- A `while (valid() && std::isdigit(peek())) number += get();` run,
shared by the integer, fraction and exponent parts of `read_number`. -/
def digitsLoop (fuel : Nat) (r : Reader) : List Nat × Reader :=
  match fuel with
  | 0 => ([], r)
  | fuel + 1 =>
    if valid r && isdigit (peek r) then
      let c := peek r
      let r2 := next r
      let p := digitsLoop fuel r2
      (c :: p.1, p.2)
    else ([], r)

/-- The exponent part of `reader::read_number` (lines 60-74): `e`/`E`,
an optional sign, then one or more digits, marking the token floating. -/
def expPart (fuel : Nat) (isFloat : Bool) (number : List Nat) (r : Reader) :
    Except RError (TokenKind × List Nat × Reader) :=
  if valid r && (peek r == 101 || peek r == 69) then
    let e := peek r
    let r1 := next r
    let sgn := if valid r1 && (peek r1 == 43 || peek r1 == 45)
               then ([peek r1], next r1) else ([], r1)
    let r2 := sgn.2
    if !(valid r2) || !(isdigit (peek r2)) then
      .error (.numberFormat "invalid number format: expected digit after exponent")
    else
      let p := digitsLoop fuel r2
      .ok (.floating, number ++ [e] ++ sgn.1 ++ p.1, p.2)
  else
    .ok (if isFloat then .floating else .integer, number, r)

/-- The fractional part of `reader::read_number` (lines 48-59): a dot
must be followed by at least one digit, marking the token floating. -/
def fracPart (fuel : Nat) (number : List Nat) (r : Reader) :
    Except RError (TokenKind × List Nat × Reader) :=
  if valid r && peek r == 46 then
    let r1 := next r
    if !(valid r1) || !(isdigit (peek r1)) then
      .error (.numberFormat "invalid number format: expected digit after decimal")
    else
      let p := digitsLoop fuel r1
      expPart fuel true (number ++ [46] ++ p.1) p.2
  else expPart fuel false number r

/-- `reader::read_number`: strict JSON-like numeric grammar with the
leading-zero check, then the fractional and exponent parts. -/
def readNumber (fuel : Nat) (r : Reader) :
    Except RError (TokenKind × List Nat × Reader) :=
  if valid r && peek r == 48 then
    let r1 := next r
    if valid r1 && isdigit (peek r1) then
      .error (.numberFormat "invalid number format: leading zeros are not allowed")
    else fracPart fuel [48] r1
  else if valid r && isdigit (peek r) then
    let c := peek r
    let r1 := next r
    let p := digitsLoop fuel r1
    fracPart fuel (c :: p.1) p.2
  else .error (.numberFormat "invalid number format: expected digit")

/-- The `for (int i = 0; i < 4; ++i)` loop inside the `\u` escape of
`reader::read_string`, unrolled to its four fixed iterations: each
iteration advances, then requires a valid hex digit; the accumulated
value is what `std::stoi(hex, nullptr, 16)` computes from the four
collected digits.  On success the reader is left at the fourth hex
digit (each iteration peeks after advancing). -/
def readHex4 (r : Reader) : Except RError (Nat × Reader) :=
  let r1 := next r
  if valid r1 && isxdigit (peek r1) then
    let r2 := next r1
    if valid r2 && isxdigit (peek r2) then
      let r3 := next r2
      if valid r3 && isxdigit (peek r3) then
        let r4 := next r3
        if valid r4 && isxdigit (peek r4) then
          .ok (((hexVal (peek r1) * 16 + hexVal (peek r2)) * 16 +
                hexVal (peek r3)) * 16 + hexVal (peek r4), r4)
        else .error (.stringErr "invalid Unicode escape sequence")
      else .error (.stringErr "invalid Unicode escape sequence")
    else .error (.stringErr "invalid Unicode escape sequence")
  else .error (.stringErr "invalid Unicode escape sequence")

/-- The closing-quote check after the do/while loop of
`reader::read_string` (lines 254-257), consuming the closing quote. -/
def stringClose (quote : Nat) (value : List Nat) (r : Reader) :
    Except RError (List Nat × Reader) :=
  if !(valid r) || !(peek r == quote) then
    .error (.stringErr "missing closing quote")
  else .ok (value, next r)

/-- The do/while body of `reader::read_string`: dispatch on the current
byte (escape handling when the backslash flag is set, otherwise
backslash / closing quote / ordinary byte), then `next()` and re-enter
while `valid()`; a `break` on the closing quote and loop exit both fall
through to the closing-quote check. -/
def readStringBody (fuel : Nat) (quote : Nat) (isB : Bool) (value : List Nat)
    (r : Reader) : Except RError (List Nat × Reader) :=
  match fuel with
  | 0 => .error .fuelOut
  | fuel + 1 =>
    let step := fun (isB2 : Bool) (value2 : List Nat) (r2 : Reader) =>
      let r3 := next r2
      if valid r3 then readStringBody fuel quote isB2 value2 r3
      else stringClose quote value2 r3
    let current := peek r
    if isB then
      if current == 34 then step false (value ++ [34]) r
      else if current == 92 then step false (value ++ [92]) r
      else if current == 47 then step false (value ++ [47]) r
      else if current == 98 then step false (value ++ [8]) r
      else if current == 102 then step false (value ++ [12]) r
      else if current == 110 then step false (value ++ [10]) r
      else if current == 114 then step false (value ++ [13]) r
      else if current == 116 then step false (value ++ [9]) r
      else if current == 117 then
        match readHex4 r with
        | .error e => .error e
        | .ok (cp, r4) => step false (value ++ utf8Encode cp) r4
      else .error (.stringErr "invalid escape sequence")
    else if current == 92 then step true value r
    else if current == quote then stringClose quote value r
    else step false (value ++ [current]) r

/-- `reader::read_string`: consume the opening quote, then run the
do/while body; the returned list is the decoded (unescaped) value. -/
def readStringRun (fuel : Nat) (r : Reader) : Except RError (List Nat × Reader) :=
  let quote := peek r
  let r1 := next r
  readStringBody fuel quote false [] r1

/-- Fuel supplied to the tokenizer loops by `nextToken`; proved
sufficient for every buffer-backed reader state. -/
def defaultFuel (r : Reader) : Nat :=
  r.buffer.length + r.fileData.length + r.maxBufferSize + 8

/-- `reader::next_token`: capture the start position, classify by the
first byte, run the matching sub-reader, and fall back to consuming a
single byte whenever the lexeme is still empty (which is how the
single-byte kinds obtain their lexeme). -/
def nextToken (r : Reader) : Except RError (Token × List Nat × Reader) :=
  let fuel := defaultFuel r
  let tline := r.line
  let tcol := r.col
  if !(valid r) then .ok ({ kind := .eof, line := tline, col := tcol }, [], r)
  else
    let finish := fun (t : TokenKind) (lex : List Nat) (r2 : Reader) =>
      if lex.isEmpty then
        let p := get r2
        Except.ok ({ kind := t, line := tline, col := tcol }, [p.1], p.2)
      else Except.ok ({ kind := t, line := tline, col := tcol }, lex, r2)
    let c := peek r
    if c == 40 || c == 91 || c == 123 then finish .open_bracket [] r
    else if c == 41 || c == 93 || c == 125 then finish .close_bracket [] r
    else if c == 44 || c == 59 || c == 58 then finish .separator [] r
    else if isalpha c || c == 95 then
      let p := readKeywordRun fuel r
      finish .keyword p.1 p.2
    else if isdigit c then
      match readNumber fuel r with
      | .error e => .error e
      | .ok (k, num, r2) => finish k num r2
    else if c == 39 || c == 34 then
      match readStringRun fuel r with
      | .error e => .error e
      | .ok (v, r2) => finish .string v r2
    else if isspace c then
      let p := readWhitespace fuel r
      finish .whitespace p.1 p.2
    else finish .special_character [] r

/-- `reader::jump_to`: reject negative positions; for a buffer-only
reader set `shift` and reject positions beyond the window length; for a
file-backed reader `seekg` (which clears the eofbit, and repositions
unless the failbit is set) and force a refill.  The supplied line and
column are stored verbatim. -/
def jumpTo (r : Reader) (position : Int) (line col : Int) :
    Except RError Reader :=
  if position < 0 then .error (.seekErr "position is out of range")
  else if !r.fileOpen then
    let shift := position.toNat
    if r.buffer.length < shift then .error (.seekErr "position is out of range")
    else .ok { r with shift := shift, line := line, col := col }
  else
    let r1 := if r.fileFail then { r with fileEof := false }
              else { r with fileEof := false, filePos := position.toNat }
    let r2 := refillBuffer r1
    .ok { r2 with line := line, col := col }

/-- Driver: call `nextToken` repeatedly, collecting lexeme texts, until
a token of kind `eof` is returned (the `eof` lexeme itself is empty and
is not collected). -/
def runTokens (fuel : Nat) (r : Reader) : Except RError (List (List Nat)) :=
  match fuel with
  | 0 => .error .fuelOut
  | fuel + 1 =>
    match nextToken r with
    | .error e => .error e
    | .ok (t, lex, r2) =>
      if t.kind == .eof then .ok []
      else
        match runTokens fuel r2 with
        | .error e => .error e
        | .ok rest => .ok (lex :: rest)

/-- Driver: the first `n` tokens (kinds and positions) of a reader,
stopping early on an error. -/
def tokensN (n : Nat) (r : Reader) : List Token :=
  match n with
  | 0 => []
  | n + 1 =>
    match nextToken r with
    | .error _ => []
    | .ok (t, _, r2) => t :: tokensN n r2

/-! ## Spec-side grammar definitions

The following definitions are written from the specification's wording
(its numeric and string grammars), not from the source; the refinement
theorems below compare `readNumber`/`readStringRun` against them. -/

/-- Spec-side integer part of the numeric grammar: either the single
digit `0` (a `0` immediately followed by another digit is the
leading-zeros error), or a nonzero digit followed by a run of digits.
Returns the consumed bytes and the remaining input. -/
def numSpecInt : List Nat → Except RError (List Nat × List Nat)
  | [] => .error (.numberFormat "invalid number format: expected digit")
  | c :: rest =>
    if c = 48 then
      match rest with
      | d :: _ =>
        if isdigit d then
          .error (.numberFormat "invalid number format: leading zeros are not allowed")
        else .ok ([48], rest)
      | [] => .ok ([48], rest)
    else if isdigit c then
      .ok (c :: rest.takeWhile isdigit, rest.dropWhile isdigit)
    else .error (.numberFormat "invalid number format: expected digit")

/-- Spec-side optional fractional part: a dot followed by one or more
digits; a dot with no following digit is an error.  Returns the
consumed bytes (empty when no fractional part is present). -/
def numSpecFrac : List Nat → Except RError (List Nat × List Nat)
  | [] => .ok ([], [])
  | c :: rest =>
    if c = 46 then
      match rest with
      | d :: _ =>
        if isdigit d then
          .ok (46 :: rest.takeWhile isdigit, rest.dropWhile isdigit)
        else .error (.numberFormat "invalid number format: expected digit after decimal")
      | [] => .error (.numberFormat "invalid number format: expected digit after decimal")
    else .ok ([], c :: rest)

/-- Spec-side optional exponent part: `e`/`E`, an optional sign, then
one or more digits; a marker without a following digit (after the
optional sign) is an error. -/
def numSpecExp : List Nat → Except RError (List Nat × List Nat)
  | [] => .ok ([], [])
  | c :: rest =>
    if c = 101 ∨ c = 69 then
      let sgn : List Nat × List Nat :=
        match rest with
        | s :: rest2 => if s = 43 ∨ s = 45 then ([s], rest2) else ([], rest)
        | [] => ([], [])
      match sgn.2 with
      | d :: _ =>
        if isdigit d then
          .ok (c :: sgn.1 ++ sgn.2.takeWhile isdigit, sgn.2.dropWhile isdigit)
        else .error (.numberFormat "invalid number format: expected digit after exponent")
      | [] => .error (.numberFormat "invalid number format: expected digit after exponent")
    else .ok ([], c :: rest)

/-- Spec-side numeric grammar: integer part, optional fraction,
optional exponent; the kind is `integer` exactly when neither optional
part is present.  Returns the kind, the full lexeme and the remaining
input. -/
def numSpec (l : List Nat) : Except RError (TokenKind × List Nat × List Nat) :=
  match numSpecInt l with
  | .error e => .error e
  | .ok (ip, l1) =>
    match numSpecFrac l1 with
    | .error e => .error e
    | .ok (fp, l2) =>
      match numSpecExp l2 with
      | .error e => .error e
      | .ok (ep, l3) =>
        .ok (if fp.isEmpty && ep.isEmpty then .integer else .floating,
             ip ++ fp ++ ep, l3)

/-- Spec-side `\u` escape argument: exactly four valid hex digits and
their code-point value, or nothing. -/
def hex4Spec (l : List Nat) : Option (Nat × List Nat) :=
  match l with
  | h1 :: h2 :: h3 :: h4 :: rest2 =>
    if isxdigit h1 && isxdigit h2 && isxdigit h3 && isxdigit h4 then
      some (((hexVal h1 * 16 + hexVal h2) * 16 + hexVal h3) * 16 + hexVal h4,
            rest2)
    else none
  | _ => none

/-- Spec-side string grammar scanner over the bytes after the opening
quote: decodes the JSON-style escapes, copies other bytes verbatim,
stops at the matching closing quote, and fails in exactly three
situations — a backslash followed by a byte outside the escape table,
a `\u` escape with fewer than 4 valid hex digits, and end of input
before the closing quote.  Returns the decoded value and the input
remaining after the closing quote. -/
def stringSpecScan (quote : Nat) : Bool → List Nat → List Nat →
    Except RError (List Nat × List Nat)
  | _, _, [] => .error (.stringErr "missing closing quote")
  | true, value, c :: rest =>
    if c = 34 then stringSpecScan quote false (value ++ [34]) rest
    else if c = 92 then stringSpecScan quote false (value ++ [92]) rest
    else if c = 47 then stringSpecScan quote false (value ++ [47]) rest
    else if c = 98 then stringSpecScan quote false (value ++ [8]) rest
    else if c = 102 then stringSpecScan quote false (value ++ [12]) rest
    else if c = 110 then stringSpecScan quote false (value ++ [10]) rest
    else if c = 114 then stringSpecScan quote false (value ++ [13]) rest
    else if c = 116 then stringSpecScan quote false (value ++ [9]) rest
    else if c = 117 then
      match hex4Spec rest with
      | some (cp, _) =>
        stringSpecScan quote false (value ++ utf8Encode cp) (rest.drop 4)
      | none => .error (.stringErr "invalid Unicode escape sequence")
    else .error (.stringErr "invalid escape sequence")
  | false, value, c :: rest =>
    if c = 92 then stringSpecScan quote true value rest
    else if c = quote then .ok (value, rest)
    else stringSpecScan quote false (value ++ [c]) rest
termination_by _ _ l => l.length
decreasing_by
  all_goals simp [List.length_drop]
  all_goals omega

/-! ## Cursor infrastructure lemmas -/

/-- The unread part of the window: the bytes at and after `shift`. -/
def rem (r : Reader) : List Nat := r.buffer.drop r.shift

/-- The effect of `n` consecutive `next()` calls on a buffer-only
reader: `shift` and `col` each advance by `n`. -/
def advanceBy (r : Reader) (n : Nat) : Reader :=
  { r with shift := r.shift + n, col := r.col + (n : Int) }

theorem refill_bufferOnly (r : Reader) (h : r.fileOpen = false) :
    refillBuffer r = r := by
  simp [refillBuffer, h]

theorem next_bufferOnly (r : Reader) (h : r.fileOpen = false) :
    next r = advanceBy r 1 := by
  by_cases hc : r.buffer.length ≤ r.shift + 1 <;>
    simp [next, hc, advanceBy, refill_bufferOnly, h]

theorem advanceBy_zero (r : Reader) : advanceBy r 0 = r := by
  simp [advanceBy]

theorem advanceBy_advanceBy (r : Reader) (m n : Nat) :
    advanceBy (advanceBy r m) n = advanceBy r (m + n) := by
  simp [advanceBy, Nat.add_assoc, Int.add_assoc]

theorem fileOpen_advanceBy (r : Reader) (n : Nat) :
    (advanceBy r n).fileOpen = r.fileOpen := rfl

theorem buffer_advanceBy (r : Reader) (n : Nat) :
    (advanceBy r n).buffer = r.buffer := rfl

theorem line_advanceBy (r : Reader) (n : Nat) :
    (advanceBy r n).line = r.line := rfl

theorem shift_advanceBy (r : Reader) (n : Nat) :
    (advanceBy r n).shift = r.shift + n := rfl

theorem col_advanceBy (r : Reader) (n : Nat) :
    (advanceBy r n).col = r.col + (n : Int) := rfl

theorem rem_advanceBy (r : Reader) (n : Nat) :
    rem (advanceBy r n) = (rem r).drop n := by
  simp [rem, advanceBy, List.drop_drop]

theorem valid_true_iff (r : Reader) : valid r = true ↔ rem r ≠ [] := by
  constructor
  · intro h hrem
    have hlen : r.buffer.length ≤ r.shift := List.drop_eq_nil_iff.mp hrem
    simp only [valid, Bool.and_eq_true, decide_eq_true_eq] at h
    omega
  · intro h
    have hlen : r.shift < r.buffer.length := by
      by_contra hc
      exact h (List.drop_eq_nil_iff.mpr (by omega))
    simp only [valid, Bool.and_eq_true, decide_eq_true_eq]
    refine ⟨?_, hlen⟩
    cases hb : r.buffer with
    | nil => rw [hb] at hlen; simp at hlen
    | cons a t => rfl

theorem valid_false_iff (r : Reader) : valid r = false ↔ rem r = [] := by
  constructor
  · intro h
    by_contra hc
    have ht := (valid_true_iff r).mpr hc
    rw [h] at ht
    exact Bool.false_ne_true ht
  · intro h
    cases hv : valid r
    · rfl
    · exact absurd ((valid_true_iff r).mp hv) (by simp [h])

theorem getD_eq_headD_drop (l : List Nat) (n : Nat) :
    l.getD n 0 = (l.drop n).headD 0 := by
  induction l generalizing n with
  | nil => simp
  | cons a t ih =>
    cases n with
    | zero => simp
    | succ m => simp [ih m]

theorem peek_rem (r : Reader) : peek r = (rem r).headD 0 := by
  simp [peek, rem, getD_eq_headD_drop]

theorem peek_of_rem_cons {r : Reader} {c : Nat} {t : List Nat}
    (h : rem r = c :: t) : peek r = c := by
  rw [peek_rem, h]
  rfl

theorem valid_of_rem_cons {r : Reader} {c : Nat} {t : List Nat}
    (h : rem r = c :: t) : valid r = true := by
  rw [valid_true_iff, h]
  simp

theorem drop_length_takeWhile (p : Nat → Bool) (l : List Nat) :
    l.drop (l.takeWhile p).length = l.dropWhile p := by
  induction l with
  | nil => simp
  | cons a t ih =>
    by_cases hp : p a
    · simpa [List.takeWhile_cons_of_pos hp, List.dropWhile_cons, hp] using ih
    · simp [List.takeWhile_cons_of_neg hp, List.dropWhile_cons, hp]

/-! ## Loop characterizations (buffer-only readers) -/

theorem digitsLoop_eq (fuel : Nat) : ∀ r : Reader, r.fileOpen = false →
    (rem r).length ≤ fuel →
    digitsLoop fuel r =
      ((rem r).takeWhile isdigit,
       advanceBy r ((rem r).takeWhile isdigit).length) := by
  induction fuel with
  | zero =>
    intro r h hf
    have hrem : rem r = [] := by
      cases hr : rem r with
      | nil => rfl
      | cons c t => rw [hr] at hf; simp at hf
    simp [digitsLoop, hrem, advanceBy_zero]
  | succ fuel ih =>
    intro r h hf
    cases hr : rem r with
    | nil =>
      have hv : valid r = false := (valid_false_iff r).mpr hr
      simp [digitsLoop, hv, hr, advanceBy_zero]
    | cons c t =>
      have hv : valid r = true := valid_of_rem_cons hr
      have hp : peek r = c := peek_of_rem_cons hr
      have hnext : next r = advanceBy r 1 := next_bufferOnly r h
      have hrem2 : rem (advanceBy r 1) = t := by
        rw [rem_advanceBy, hr]; rfl
      by_cases hd : isdigit c = true
      · have hlen2 : (rem (advanceBy r 1)).length ≤ fuel := by
          rw [hrem2]; rw [hr] at hf; simp at hf; omega
        have ihr := ih (advanceBy r 1) h hlen2
        rw [hrem2] at ihr
        simp [digitsLoop, hv, hp, hd, hnext, ihr, hr,
              List.takeWhile_cons_of_pos hd, advanceBy_advanceBy,
              Nat.add_comm]
      · have hd2 : ¬ isdigit c = true := hd
        simp [digitsLoop, hv, hp, hd, hr,
              List.takeWhile_cons_of_neg hd2, advanceBy_zero]

theorem keywordLoop_eq (fuel : Nat) : ∀ r : Reader, r.fileOpen = false →
    (rem r).length ≤ fuel →
    keywordLoop fuel r =
      ((rem r).takeWhile (fun b => isalnum b || b == 95),
       advanceBy r ((rem r).takeWhile (fun b => isalnum b || b == 95)).length) := by
  induction fuel with
  | zero =>
    intro r h hf
    have hrem : rem r = [] := by
      cases hr : rem r with
      | nil => rfl
      | cons c t => rw [hr] at hf; simp at hf
    simp [keywordLoop, hrem, advanceBy_zero]
  | succ fuel ih =>
    intro r h hf
    cases hr : rem r with
    | nil =>
      have hv : valid r = false := (valid_false_iff r).mpr hr
      simp [keywordLoop, hv, hr, advanceBy_zero]
    | cons c t =>
      have hv : valid r = true := valid_of_rem_cons hr
      have hp : peek r = c := peek_of_rem_cons hr
      have hnext : next r = advanceBy r 1 := next_bufferOnly r h
      have hrem2 : rem (advanceBy r 1) = t := by
        rw [rem_advanceBy, hr]; rfl
      by_cases hd : (isalnum c || c == 95) = true
      · have hlen2 : (rem (advanceBy r 1)).length ≤ fuel := by
          rw [hrem2]; rw [hr] at hf; simp at hf; omega
        have ihr := ih (advanceBy r 1) h hlen2
        rw [hrem2] at ihr
        simp [keywordLoop, hv, hp, hd, hnext, ihr, hr,
              List.takeWhile_cons_of_pos hd, advanceBy_advanceBy,
              Nat.add_comm]
      · simp [keywordLoop, hv, hp, hd, hr,
              List.takeWhile_cons_of_neg hd, advanceBy_zero]

theorem readKeywordRun_eq (fuel : Nat) (r : Reader) (h : r.fileOpen = false)
    {c : Nat} {t : List Nat} (hr : rem r = c :: t)
    (hf : t.length ≤ fuel) :
    readKeywordRun fuel r =
      (c :: t.takeWhile (fun b => isalnum b || b == 95),
       advanceBy r (1 + (t.takeWhile (fun b => isalnum b || b == 95)).length)) := by
  have hp : peek r = c := peek_of_rem_cons hr
  have hnext : next r = advanceBy r 1 := next_bufferOnly r h
  have hrem2 : rem (advanceBy r 1) = t := by
    rw [rem_advanceBy, hr]; rfl
  have hkl := keywordLoop_eq fuel (advanceBy r 1) h (by rw [hrem2]; exact hf)
  rw [hrem2] at hkl
  simp [readKeywordRun, hp, hnext, hkl, advanceBy_advanceBy]

/-- Count of newline bytes in a consumed run. -/
def nlCount : List Nat → Nat
  | [] => 0
  | b :: w => (if b == 10 then 1 else 0) + nlCount w

/-- Column bookkeeping over a consumed run: every byte increments the
column, a newline byte first resets it to -1 (so the byte after the
newline is reported at column 0). -/
def colAfter (c : Int) : List Nat → Int
  | [] => c
  | b :: w => colAfter (if b == 10 then 0 else c + 1) w

/-- The full state effect of `read_whitespace` consuming the run `w`. -/
def wsAdvance (r : Reader) (w : List Nat) : Reader :=
  { r with shift := r.shift + w.length,
           line := r.line + (nlCount w : Int),
           col := colAfter r.col w }

theorem wsAdvance_nil (r : Reader) : wsAdvance r [] = r := by
  simp [wsAdvance, nlCount, colAfter]

theorem wsStep_eq (r : Reader) (h : r.fileOpen = false) {c : Nat}
    (hp : peek r = c) : wsStep r = wsAdvance r [c] := by
  by_cases hc : c = 10
  · subst hc
    simp [wsStep, hp, next_bufferOnly, h, advanceBy, wsAdvance, nlCount, colAfter]
  · simp only [wsStep, hp, beq_iff_eq, if_neg hc, next_bufferOnly _ h]
    simp [advanceBy, wsAdvance, nlCount, colAfter, hc]

theorem wsAdvance_cons (r : Reader) (c : Nat) (w : List Nat) :
    wsAdvance r (c :: w) = wsAdvance (wsAdvance r [c]) w := by
  simp only [wsAdvance, nlCount, colAfter, Reader.mk.injEq]
  refine ⟨trivial, trivial, trivial, trivial, trivial, trivial, trivial,
    trivial, trivial, by push_cast; ring, by simp; omega⟩

theorem fileOpen_wsAdvance (r : Reader) (w : List Nat) :
    (wsAdvance r w).fileOpen = r.fileOpen := rfl

theorem rem_wsAdvance (r : Reader) (w : List Nat) :
    rem (wsAdvance r w) = (rem r).drop w.length := by
  simp [rem, wsAdvance, List.drop_drop]

theorem readWhitespace_eq (fuel : Nat) : ∀ r : Reader, r.fileOpen = false →
    (rem r).length ≤ fuel →
    readWhitespace fuel r =
      ((rem r).takeWhile isspace,
       wsAdvance r ((rem r).takeWhile isspace)) := by
  induction fuel with
  | zero =>
    intro r h hf
    have hrem : rem r = [] := by
      cases hr : rem r with
      | nil => rfl
      | cons c t => rw [hr] at hf; simp at hf
    simp [readWhitespace, hrem, wsAdvance_nil]
  | succ fuel ih =>
    intro r h hf
    cases hr : rem r with
    | nil =>
      have hv : valid r = false := (valid_false_iff r).mpr hr
      simp [readWhitespace, hv, hr, wsAdvance_nil]
    | cons c t =>
      have hv : valid r = true := valid_of_rem_cons hr
      have hp : peek r = c := peek_of_rem_cons hr
      have hstep : wsStep r = wsAdvance r [c] := wsStep_eq r h hp
      have hrem2 : rem (wsAdvance r [c]) = t := by
        rw [rem_wsAdvance, hr]; rfl
      by_cases hd : isspace c = true
      · have hlen2 : (rem (wsAdvance r [c])).length ≤ fuel := by
          rw [hrem2]; rw [hr] at hf; simp at hf; omega
        have ihr := ih (wsAdvance r [c]) h hlen2
        rw [hrem2] at ihr
        simp [readWhitespace, hv, hp, hd, hstep, ihr, hr,
              List.takeWhile_cons_of_pos hd, ← wsAdvance_cons]
      · simp [readWhitespace, hv, hp, hd, hr,
              List.takeWhile_cons_of_neg hd, wsAdvance_nil]

/-! ## `read_number` refines the spec-side numeric grammar -/

theorem next_advanceBy (r : Reader) (h : r.fileOpen = false) (n : Nat) :
    next (advanceBy r n) = advanceBy r (n + 1) := by
  have h2 : (advanceBy r n).fileOpen = false := by
    rw [fileOpen_advanceBy]; exact h
  rw [next_bufferOnly _ h2, advanceBy_advanceBy]

theorem expPart_eq (fuel : Nat) (r : Reader) (h : r.fileOpen = false)
    (isFloat : Bool) (number : List Nat) (hf : (rem r).length ≤ fuel) :
    match numSpecExp (rem r) with
    | .ok (ep, rest) =>
        ep ++ rest = rem r ∧
        expPart fuel isFloat number r =
          .ok ((if isFloat || !ep.isEmpty then TokenKind.floating else .integer),
               number ++ ep, advanceBy r ep.length)
    | .error e => expPart fuel isFloat number r = .error e := by
  cases hr : rem r with
  | nil =>
    have hv : valid r = false := (valid_false_iff r).mpr hr
    simp [numSpecExp, expPart, hv, advanceBy_zero]
  | cons c rest0 =>
    have hv : valid r = true := valid_of_rem_cons hr
    have hp : peek r = c := peek_of_rem_cons hr
    have hnext : next r = advanceBy r 1 := next_bufferOnly r h
    have hrem1 : rem (advanceBy r 1) = rest0 := by rw [rem_advanceBy, hr]; rfl
    by_cases hc : c = 101 ∨ c = 69
    · have hcb : (c == 101 || c == 69) = true := by
        rcases hc with hc | hc <;> simp [hc]
      cases hr0 : rest0 with
      | nil =>
        have hv1 : valid (advanceBy r 1) = false := by
          rw [valid_false_iff, hrem1, hr0]
        have hspec : numSpecExp [c] = .error
            (.numberFormat "invalid number format: expected digit after exponent") := by
          simp [numSpecExp, if_pos hc]
        rw [hspec]
        simp [expPart, hv, hp, hcb, hnext, hv1]
      | cons s rest1 =>
        have hrem1s : rem (advanceBy r 1) = s :: rest1 := by rw [hrem1, hr0]
        have hv1 : valid (advanceBy r 1) = true := by
          rw [valid_true_iff, hrem1s]
          simp
        have hp1 : peek (advanceBy r 1) = s := by
          rw [peek_rem, hrem1s]
          rfl
        have hnext1 : next (advanceBy r 1) = advanceBy r 2 := by
          rw [next_advanceBy r h]
        have hrem2 : rem (advanceBy r 2) = rest1 := by
          rw [rem_advanceBy, hr, hr0]
          rfl
        by_cases hs : s = 43 ∨ s = 45
        · have hsb : (s == 43 || s == 45) = true := by
            rcases hs with hs | hs <;> simp [hs]
          cases hr1 : rest1 with
          | nil =>
            have hv2 : valid (advanceBy r 2) = false := by
              rw [valid_false_iff, hrem2, hr1]
            have hspec : numSpecExp [c, s] = .error
                (.numberFormat "invalid number format: expected digit after exponent") := by
              simp [numSpecExp, if_pos hc, if_pos hs]
            rw [hspec]
            simp [expPart, hv, hp, hcb, hnext, hv1, hp1, hsb, hnext1, hv2]
          | cons d rest2 =>
            have hrem2d : rem (advanceBy r 2) = d :: rest2 := by
              rw [hrem2, hr1]
            have hv2 : valid (advanceBy r 2) = true := by
              rw [valid_true_iff, hrem2d]
              simp
            have hp2 : peek (advanceBy r 2) = d := by
              rw [peek_rem, hrem2d]
              rfl
            by_cases hd : isdigit d = true
            · have hlen : (rem (advanceBy r 2)).length ≤ fuel := by
                rw [hrem2d]
                rw [hr, hr0, hr1] at hf
                simp only [List.length_cons] at hf ⊢
                omega
              have hdl := digitsLoop_eq fuel (advanceBy r 2) h hlen
              rw [hrem2d] at hdl
              have htw : (d :: rest2).takeWhile isdigit =
                  d :: rest2.takeWhile isdigit := List.takeWhile_cons_of_pos hd
              have hspec : numSpecExp (c :: s :: d :: rest2) =
                  .ok (c :: s :: (d :: rest2).takeWhile isdigit,
                       (d :: rest2).dropWhile isdigit) := by
                simp [numSpecExp, if_pos hc, if_pos hs, hd]
              rw [hspec]
              constructor
              · have hsplit := List.takeWhile_append_dropWhile
                  (p := isdigit) (l := d :: rest2)
                simp only [List.cons_append, List.cons.injEq, true_and]
                exact hsplit
              · have hlc : (c :: s :: (d :: rest2).takeWhile isdigit).length =
                    2 + ((d :: rest2).takeWhile isdigit).length := by
                  simp only [List.length_cons]
                  omega
                simp [expPart, hv, hp, hcb, hnext, hv1, hp1, hsb, hnext1, hv2,
                      hp2, hd, hdl, hlc, advanceBy_advanceBy]
                congr 1
                omega
            · have hspec : numSpecExp (c :: s :: d :: rest2) = .error
                  (.numberFormat "invalid number format: expected digit after exponent") := by
                simp [numSpecExp, if_pos hc, if_pos hs, hd]
              rw [hspec]
              simp [expPart, hv, hp, hcb, hnext, hv1, hp1, hsb, hnext1, hv2,
                    hp2, hd]
        · have hsb : (s == 43 || s == 45) = false := by
            simp only [Bool.or_eq_false_iff, beq_eq_false_iff_ne, ne_eq]
            constructor <;> (intro he; exact hs (by simp [he]))
          by_cases hd : isdigit s = true
          · have hlen : (rem (advanceBy r 1)).length ≤ fuel := by
              rw [hrem1s]
              rw [hr, hr0] at hf
              simp only [List.length_cons] at hf ⊢
              omega
            have hdl := digitsLoop_eq fuel (advanceBy r 1) h hlen
            rw [hrem1s] at hdl
            have htw : (s :: rest1).takeWhile isdigit =
                s :: rest1.takeWhile isdigit := List.takeWhile_cons_of_pos hd
            have hspec : numSpecExp (c :: s :: rest1) =
                .ok (c :: (s :: rest1).takeWhile isdigit,
                     (s :: rest1).dropWhile isdigit) := by
              simp [numSpecExp, if_pos hc, if_neg hs, hd]
            rw [hspec]
            constructor
            · have hsplit := List.takeWhile_append_dropWhile
                (p := isdigit) (l := s :: rest1)
              simp only [List.cons_append, List.cons.injEq, true_and]
              exact hsplit
            · have hlc : (c :: (s :: rest1).takeWhile isdigit).length =
                  1 + ((s :: rest1).takeWhile isdigit).length := by
                simp only [List.length_cons]
                omega
              simp [expPart, hv, hp, hcb, hnext, hv1, hp1, hsb, hd, hdl, hlc,
                    advanceBy_advanceBy]
              congr 1
              omega
          · have hspec : numSpecExp (c :: s :: rest1) = .error
                (.numberFormat "invalid number format: expected digit after exponent") := by
              simp [numSpecExp, if_pos hc, if_neg hs, hd]
            rw [hspec]
            simp [expPart, hv, hp, hcb, hnext, hv1, hp1, hsb, hd]
    · have hcb : (c == 101 || c == 69) = false := by
        simp only [Bool.or_eq_false_iff, beq_eq_false_iff_ne, ne_eq]
        constructor <;> (intro he; exact hc (by simp [he]))
      have hspec : numSpecExp (c :: rest0) = .ok ([], c :: rest0) := by
        simp [numSpecExp, if_neg hc]
      rw [hspec]
      simp [expPart, hv, hp, hcb, advanceBy_zero]
theorem fracPart_eq (fuel : Nat) (r : Reader) (h : r.fileOpen = false)
    (number : List Nat) (hf : (rem r).length + 1 ≤ fuel) :
    match numSpecFrac (rem r) with
    | .ok (fp, rest1) =>
        fp ++ rest1 = rem r ∧
        (match numSpecExp rest1 with
         | .ok (ep, rest2) =>
             ep ++ rest2 = rest1 ∧
             fracPart fuel number r =
               .ok ((if fp.isEmpty && ep.isEmpty then TokenKind.integer
                     else .floating),
                    number ++ fp ++ ep, advanceBy r (fp.length + ep.length))
         | .error e => fracPart fuel number r = .error e)
    | .error e => fracPart fuel number r = .error e := by
  cases hr : rem r with
  | nil =>
    have hv : valid r = false := (valid_false_iff r).mpr hr
    simp [numSpecFrac, numSpecExp, fracPart, expPart, hv, advanceBy_zero]
  | cons c t =>
    have hv : valid r = true := valid_of_rem_cons hr
    have hp : peek r = c := peek_of_rem_cons hr
    have hnext : next r = advanceBy r 1 := next_bufferOnly r h
    have hrem1 : rem (advanceBy r 1) = t := by rw [rem_advanceBy, hr]; rfl
    by_cases hc : c = 46
    · subst hc
      cases ht : t with
      | nil =>
        have hv1 : valid (advanceBy r 1) = false := by
          rw [valid_false_iff, hrem1, ht]
        simp [numSpecFrac, fracPart, hv, hp, hnext, hv1]
      | cons d t2 =>
        have hrem1d : rem (advanceBy r 1) = d :: t2 := by rw [hrem1, ht]
        have hv1 : valid (advanceBy r 1) = true := by
          rw [valid_true_iff, hrem1d]
          simp
        have hp1 : peek (advanceBy r 1) = d := by
          rw [peek_rem, hrem1d]
          rfl
        by_cases hd : isdigit d = true
        · have hlen : (rem (advanceBy r 1)).length ≤ fuel := by
            rw [hrem1d]
            rw [hr, ht] at hf
            simp only [List.length_cons] at hf ⊢
            omega
          have hdl := digitsLoop_eq fuel (advanceBy r 1) h hlen
          rw [hrem1d] at hdl
          have hspecF : numSpecFrac (46 :: d :: t2) =
              .ok (46 :: (d :: t2).takeWhile isdigit,
                   (d :: t2).dropWhile isdigit) := by
            simp [numSpecFrac, hd]
          rw [hspecF]
          have hr2 : advanceBy (advanceBy r 1) ((d :: t2).takeWhile isdigit).length =
              advanceBy r (1 + ((d :: t2).takeWhile isdigit).length) :=
            advanceBy_advanceBy r 1 _
          have hrem2 : rem (advanceBy r (1 + ((d :: t2).takeWhile isdigit).length)) =
              (d :: t2).dropWhile isdigit := by
            rw [rem_advanceBy, hr, ht]
            have : (46 :: d :: t2).drop (1 + ((d :: t2).takeWhile isdigit).length) =
                (d :: t2).drop ((d :: t2).takeWhile isdigit).length := by
              rw [← List.drop_drop]
              rfl
            rw [this, drop_length_takeWhile]
          have hflen : (rem (advanceBy r (1 + ((d :: t2).takeWhile isdigit).length))).length
              ≤ fuel := by
            rw [hrem2]
            have hlele : ((d :: t2).dropWhile isdigit).length ≤ (d :: t2).length := by
              rw [← drop_length_takeWhile isdigit (d :: t2)]
              simp [List.length_drop]
            rw [hr, ht] at hf
            simp only [List.length_cons] at hf hlele ⊢
            omega
          have hep := expPart_eq fuel
            (advanceBy r (1 + ((d :: t2).takeWhile isdigit).length)) h true
            (number ++ [46] ++ (d :: t2).takeWhile isdigit) hflen
          rw [hrem2] at hep
          have hcodeEq : fracPart fuel number r =
              expPart fuel true (number ++ [46] ++ (d :: t2).takeWhile isdigit)
                (advanceBy r (1 + ((d :: t2).takeWhile isdigit).length)) := by
            rw [← hr2]
            simp [fracPart, hv, hp, hnext, hv1, hp1, hd, hdl]
          dsimp only
          refine ⟨?_, ?_⟩
          · have hsplit := List.takeWhile_append_dropWhile
              (p := isdigit) (l := d :: t2)
            simp only [List.cons_append, List.cons.injEq, true_and]
            exact hsplit
          · cases hexp : numSpecExp ((d :: t2).dropWhile isdigit) with
            | ok pr =>
              obtain ⟨ep, rest2⟩ := pr
              rw [hexp] at hep
              obtain ⟨happ2, hcode⟩ := hep
              dsimp only
              refine ⟨happ2, ?_⟩
              rw [hcodeEq, hcode]
              simp [advanceBy_advanceBy]
              congr 1
              omega
            | error e =>
              rw [hexp] at hep
              rw [hcodeEq, hep]
        · have hspecF : numSpecFrac (46 :: d :: t2) = .error
              (.numberFormat "invalid number format: expected digit after decimal") := by
            simp [numSpecFrac, hd]
          rw [hspecF]
          simp [fracPart, hv, hp, hnext, hv1, hp1, hd]
    · have hcb : (c == 46) = false := by simp [hc]
      have hspecF : numSpecFrac (c :: t) = .ok ([], c :: t) := by
        simp [numSpecFrac, hc]
      rw [hspecF]
      dsimp only
      have hcodeEq : fracPart fuel number r = expPart fuel false number r := by
        simp [fracPart, hv, hp, hcb]
      have hep := expPart_eq fuel r h false number (by rw [hr] at hf ⊢; omega)
      rw [hr] at hep
      refine ⟨by simp, ?_⟩
      cases hexp : numSpecExp (c :: t) with
      | ok pr =>
        obtain ⟨ep, rest2⟩ := pr
        rw [hexp] at hep
        obtain ⟨happ2, hcode⟩ := hep
        dsimp only
        refine ⟨happ2, ?_⟩
        rw [hcodeEq, hcode]
        cases hem : ep.isEmpty <;> simp [hem, advanceBy_zero]
      | error e =>
        rw [hexp] at hep
        rw [hcodeEq, hep]

theorem readNumber_eq (fuel : Nat) (r : Reader) (h : r.fileOpen = false)
    (hf : (rem r).length + 1 ≤ fuel) :
    match numSpec (rem r) with
    | .ok (k, lex, rest) =>
        lex ≠ [] ∧ lex ++ rest = rem r ∧
        readNumber fuel r = .ok (k, lex, advanceBy r lex.length)
    | .error e => readNumber fuel r = .error e := by
  cases hr : rem r with
  | nil =>
    have hv : valid r = false := (valid_false_iff r).mpr hr
    simp [numSpec, numSpecInt, readNumber, hv]
  | cons c t =>
    have hv : valid r = true := valid_of_rem_cons hr
    have hp : peek r = c := peek_of_rem_cons hr
    have hnext : next r = advanceBy r 1 := next_bufferOnly r h
    have hrem1 : rem (advanceBy r 1) = t := by rw [rem_advanceBy, hr]; rfl
    by_cases hc : c = 48
    · subst hc
      cases ht : t with
      | nil =>
        have hv1 : valid (advanceBy r 1) = false := by
          rw [valid_false_iff, hrem1, ht]
        have hspecI : numSpec [48] = .ok (.integer, [48], []) := by
          simp [numSpec, numSpecInt, numSpecFrac, numSpecExp]
        rw [hspecI]
        refine ⟨by simp, by simp, ?_⟩
        simp [readNumber, fracPart, expPart, hv, hp, hnext, hv1]
      | cons d t2 =>
        have hrem1d : rem (advanceBy r 1) = d :: t2 := by rw [hrem1, ht]
        have hv1 : valid (advanceBy r 1) = true := by
          rw [valid_true_iff, hrem1d]
          simp
        have hp1 : peek (advanceBy r 1) = d := by
          rw [peek_rem, hrem1d]
          rfl
        by_cases hd : isdigit d = true
        · have hspec : numSpec (48 :: d :: t2) = .error
              (.numberFormat "invalid number format: leading zeros are not allowed") := by
            simp [numSpec, numSpecInt, hd]
          rw [hspec]
          simp [readNumber, hv, hp, hnext, hv1, hp1, hd]
        · have hspecI : numSpecInt (48 :: d :: t2) = .ok ([48], d :: t2) := by
            simp [numSpecInt, hd]
          have hcodeEq : readNumber fuel r =
              fracPart fuel [48] (advanceBy r 1) := by
            simp [readNumber, hv, hp, hnext, hv1, hp1, hd]
          have hfrac := fracPart_eq fuel (advanceBy r 1) h [48] (by
            rw [hrem1d]
            rw [hr, ht] at hf
            simp only [List.length_cons] at hf ⊢
            omega)
          rw [hrem1d] at hfrac
          simp only [numSpec, hspecI]
          cases hF : numSpecFrac (d :: t2) with
          | ok prF =>
            obtain ⟨fp, l2⟩ := prF
            rw [hF] at hfrac
            dsimp only at hfrac ⊢
            obtain ⟨happF, hinner⟩ := hfrac
            cases hE : numSpecExp l2 with
            | ok prE =>
              obtain ⟨ep, l3⟩ := prE
              rw [hE] at hinner
              dsimp only at hinner ⊢
              obtain ⟨happE, hcode⟩ := hinner
              refine ⟨by simp, ?_, ?_⟩
              · simp only [List.append_assoc, List.cons_append, List.nil_append]
                rw [happE, happF]
              · rw [hcodeEq, hcode]
                simp [advanceBy_advanceBy]
                congr 1
                omega
            | error e =>
              rw [hE] at hinner
              rw [hcodeEq, hinner]
          | error e =>
            rw [hF] at hfrac
            rw [hcodeEq, hfrac]
    · have hcb : (c == 48) = false := by simp [hc]
      by_cases hdg : isdigit c = true
      · have hlen1 : (rem (advanceBy r 1)).length ≤ fuel := by
          rw [hrem1]
          rw [hr] at hf
          simp only [List.length_cons] at hf ⊢
          omega
        have hdl := digitsLoop_eq fuel (advanceBy r 1) h hlen1
        rw [hrem1] at hdl
        have hr2 : advanceBy (advanceBy r 1) ((t.takeWhile isdigit).length) =
            advanceBy r (1 + (t.takeWhile isdigit).length) :=
          advanceBy_advanceBy r 1 _
        have hrem2 : rem (advanceBy r (1 + (t.takeWhile isdigit).length)) =
            t.dropWhile isdigit := by
          rw [rem_advanceBy, hr]
          have hdd : (c :: t).drop (1 + (t.takeWhile isdigit).length) =
              t.drop (t.takeWhile isdigit).length := by
            rw [← List.drop_drop]
            rfl
          rw [hdd, drop_length_takeWhile]
        have hspecI : numSpecInt (c :: t) =
            .ok (c :: t.takeWhile isdigit, t.dropWhile isdigit) := by
          simp [numSpecInt, hc, hdg]
        have hcodeEq : readNumber fuel r =
            fracPart fuel (c :: t.takeWhile isdigit)
              (advanceBy r (1 + (t.takeWhile isdigit).length)) := by
          rw [← hr2]
          simp [readNumber, hv, hp, hcb, hdg, hnext, hdl]
        have hfrac := fracPart_eq fuel
          (advanceBy r (1 + (t.takeWhile isdigit).length)) h
          (c :: t.takeWhile isdigit) (by
            rw [hrem2]
            have hlele : (t.dropWhile isdigit).length ≤ t.length := by
              rw [← drop_length_takeWhile isdigit t]
              simp [List.length_drop]
            rw [hr] at hf
            simp only [List.length_cons] at hf ⊢
            omega)
        rw [hrem2] at hfrac
        simp only [numSpec, hspecI]
        cases hF : numSpecFrac (t.dropWhile isdigit) with
        | ok prF =>
          obtain ⟨fp, l2⟩ := prF
          rw [hF] at hfrac
          dsimp only at hfrac ⊢
          obtain ⟨happF, hinner⟩ := hfrac
          cases hE : numSpecExp l2 with
          | ok prE =>
            obtain ⟨ep, l3⟩ := prE
            rw [hE] at hinner
            dsimp only at hinner ⊢
            obtain ⟨happE, hcode⟩ := hinner
            refine ⟨by simp, ?_, ?_⟩
            · simp only [List.append_assoc, List.cons_append, List.nil_append]
              rw [happE, happF, List.takeWhile_append_dropWhile]
            · rw [hcodeEq, hcode]
              simp [advanceBy_advanceBy]
              congr 1
              omega
          | error e =>
            rw [hE] at hinner
            rw [hcodeEq, hinner]
        | error e =>
          rw [hF] at hfrac
          rw [hcodeEq, hfrac]
      · have hspec : numSpec (c :: t) = .error
            (.numberFormat "invalid number format: expected digit") := by
          simp [numSpec, numSpecInt, hc, hdg]
        rw [hspec]
        simp [readNumber, hv, hp, hcb, hdg]

/-! ## `read_string` refines the spec-side string grammar -/

theorem readStringBody_eq (fuel : Nat) : ∀ (quote : Nat) (isB : Bool)
    (value : List Nat) (r : Reader), r.fileOpen = false →
    (isB = true → rem r ≠ []) → (rem r).length + 1 ≤ fuel →
    match stringSpecScan quote isB value (rem r) with
    | .ok (v, rest2) =>
        rest2.length < (rem r).length ∧
        readStringBody fuel quote isB value r =
          .ok (v, advanceBy r ((rem r).length - rest2.length))
    | .error e => readStringBody fuel quote isB value r = .error e := by
  induction fuel with
  | zero =>
    intro quote isB value r h hB hf
    omega
  | succ fuel ih =>
    intro quote isB value r h hB hf
    have hstep : ∀ (isB2 : Bool) (value2 : List Nat) (rb : Reader)
        (lb : List Nat), rb.fileOpen = false → rem rb = lb →
        lb.length ≤ fuel →
        match stringSpecScan quote isB2 value2 (lb.drop 1) with
        | .ok (v, rest2) =>
            rest2.length + 1 ≤ lb.length ∧
            (if valid (next rb) then readStringBody fuel quote isB2 value2 (next rb)
             else stringClose quote value2 (next rb)) =
              .ok (v, advanceBy rb (lb.length - rest2.length))
        | .error e =>
            (if valid (next rb) then readStringBody fuel quote isB2 value2 (next rb)
             else stringClose quote value2 (next rb)) = .error e := by
      intro isB2 value2 rb lb hb hrb hlb
      have hnextb : next rb = advanceBy rb 1 := next_bufferOnly rb hb
      have hremb : rem (next rb) = lb.drop 1 := by
        rw [hnextb, rem_advanceBy, hrb]
      cases hld : lb.drop 1 with
      | nil =>
        have hvb : valid (next rb) = false := by
          rw [valid_false_iff, hremb, hld]
        cases isB2 <;> simp [stringSpecScan, hvb, stringClose]
      | cons c2 rest2 =>
        have hvb : valid (next rb) = true := by
          rw [valid_true_iff, hremb, hld]
          simp
        have hlb1 : lb.length = rest2.length + 2 := by
          cases lb with
          | nil => simp at hld
          | cons x xs =>
            have hxs : xs = c2 :: rest2 := by
              have hdx : (x :: xs).drop 1 = xs := rfl
              rw [hdx] at hld
              exact hld
            rw [hxs]
            simp
        have hlen2 : (rem (next rb)).length + 1 ≤ fuel := by
          rw [hremb, hld]
          simp only [List.length_cons]
          omega
        have hihb := ih quote isB2 value2 (next rb)
          (by rw [hnextb, fileOpen_advanceBy]; exact hb)
          (by intro _; rw [hremb, hld]; simp) hlen2
        rw [hremb, hld] at hihb
        cases hscan : stringSpecScan quote isB2 value2 (c2 :: rest2) with
        | ok pr =>
          obtain ⟨v, rest3⟩ := pr
          rw [hscan] at hihb
          dsimp only at hihb ⊢
          obtain ⟨hlt, hcode⟩ := hihb
          simp only [List.length_cons] at hlt
          refine ⟨by omega, ?_⟩
          have harith : 1 + ((c2 :: rest2).length - rest3.length) =
              lb.length - rest3.length := by
            simp only [List.length_cons]
            omega
          rw [if_pos hvb, hcode, hnextb, advanceBy_advanceBy, harith]
        | error e =>
          rw [hscan] at hihb
          rw [if_pos hvb]
          exact hihb
    cases isB with
    | false =>
      cases hr : rem r with
      | nil =>
        have hv : valid r = false := (valid_false_iff r).mpr hr
        have hp : peek r = 0 := by rw [peek_rem, hr]; rfl
        have hnext : next r = advanceBy r 1 := next_bufferOnly r h
        have hv1 : valid (next r) = false := by
          rw [valid_false_iff, hnext, rem_advanceBy, hr]
          rfl
        by_cases hq : (0 : Nat) = quote
        · simp [stringSpecScan, readStringBody, stringClose, hp, hv, ← hq]
        · have hbq : ((0 : Nat) == quote) = false := by simp [hq]
          simp [stringSpecScan, readStringBody, stringClose, hp, hv, hv1, hbq]
      | cons c rest =>
        have hv : valid r = true := valid_of_rem_cons hr
        have hp : peek r = c := peek_of_rem_cons hr
        have hnext : next r = advanceBy r 1 := next_bufferOnly r h
        have hlb : (c :: rest).length ≤ fuel := by
          rw [hr] at hf
          omega
        have hcont : ∀ (isB2 : Bool) (value2 : List Nat),
            stringSpecScan quote false value (c :: rest) =
              stringSpecScan quote isB2 value2 rest →
            readStringBody (fuel + 1) quote false value r =
              (if valid (next r) then
                 readStringBody fuel quote isB2 value2 (next r)
               else stringClose quote value2 (next r)) →
            match stringSpecScan quote false value (c :: rest) with
            | .ok (v, rest2) =>
                rest2.length < (c :: rest).length ∧
                readStringBody (fuel + 1) quote false value r =
                  .ok (v, advanceBy r ((c :: rest).length - rest2.length))
            | .error e =>
                readStringBody (fuel + 1) quote false value r = .error e := by
          intro isB2 value2 hscanEq hcodeEq
          rw [hscanEq, hcodeEq]
          have hst := hstep isB2 value2 r (c :: rest) h hr hlb
          have hd1 : (c :: rest).drop 1 = rest := rfl
          rw [hd1] at hst
          exact hst
        by_cases h92 : c = 92
        · subst h92
          exact hcont true value (by simp [stringSpecScan])
            (by simp [readStringBody, hp])
        · by_cases hqc : c = quote
          · have hb92 : (c == 92) = false := by simp [h92]
            have hbqc : (c == quote) = true := by simp [hqc]
            have hq92 : ¬ quote = 92 := by
              rw [← hqc]
              exact h92
            have hsc : stringSpecScan quote false value (c :: rest) =
                .ok (value, rest) := by
              simp [stringSpecScan, h92, hqc, hq92]
            rw [hsc]
            dsimp only
            have hcodeV : readStringBody (fuel + 1) quote false value r =
                .ok (value, next r) := by
              simp [readStringBody, hp, hb92, hbqc, stringClose, hv]
            refine ⟨by simp, ?_⟩
            rw [hcodeV, hnext,
                show (c :: rest).length - rest.length = 1 from by simp]
          · have hb92 : (c == 92) = false := by simp [h92]
            have hbqc : (c == quote) = false := by simp [hqc]
            exact hcont false (value ++ [c])
              (by simp [stringSpecScan, h92, hqc])
              (by simp [readStringBody, hp, hb92, hbqc])
    | true =>
      have hne : rem r ≠ [] := hB rfl
      cases hr : rem r with
      | nil => exact absurd hr hne
      | cons c rest =>
        have hv : valid r = true := valid_of_rem_cons hr
        have hp : peek r = c := peek_of_rem_cons hr
        have hnext : next r = advanceBy r 1 := next_bufferOnly r h
        have hlb : (c :: rest).length ≤ fuel := by
          rw [hr] at hf
          omega
        have hcont : ∀ (isB2 : Bool) (value2 : List Nat),
            stringSpecScan quote true value (c :: rest) =
              stringSpecScan quote isB2 value2 rest →
            readStringBody (fuel + 1) quote true value r =
              (if valid (next r) then
                 readStringBody fuel quote isB2 value2 (next r)
               else stringClose quote value2 (next r)) →
            match stringSpecScan quote true value (c :: rest) with
            | .ok (v, rest2) =>
                rest2.length < (c :: rest).length ∧
                readStringBody (fuel + 1) quote true value r =
                  .ok (v, advanceBy r ((c :: rest).length - rest2.length))
            | .error e =>
                readStringBody (fuel + 1) quote true value r = .error e := by
          intro isB2 value2 hscanEq hcodeEq
          rw [hscanEq, hcodeEq]
          have hst := hstep isB2 value2 r (c :: rest) h hr hlb
          have hd1 : (c :: rest).drop 1 = rest := rfl
          rw [hd1] at hst
          exact hst
        by_cases h34 : c = 34
        · subst h34
          exact hcont false (value ++ [34]) (by simp [stringSpecScan])
            (by simp [readStringBody, hp])
        · by_cases h92 : c = 92
          · subst h92
            exact hcont false (value ++ [92]) (by simp [stringSpecScan])
              (by simp [readStringBody, hp])
          · by_cases h47 : c = 47
            · subst h47
              exact hcont false (value ++ [47]) (by simp [stringSpecScan])
                (by simp [readStringBody, hp])
            · by_cases h98 : c = 98
              · subst h98
                exact hcont false (value ++ [8]) (by simp [stringSpecScan])
                  (by simp [readStringBody, hp])
              · by_cases h102 : c = 102
                · subst h102
                  exact hcont false (value ++ [12]) (by simp [stringSpecScan])
                    (by simp [readStringBody, hp])
                · by_cases h110 : c = 110
                  · subst h110
                    exact hcont false (value ++ [10]) (by simp [stringSpecScan])
                      (by simp [readStringBody, hp])
                  · by_cases h114 : c = 114
                    · subst h114
                      exact hcont false (value ++ [13]) (by simp [stringSpecScan])
                        (by simp [readStringBody, hp])
                    · by_cases h116 : c = 116
                      · subst h116
                        exact hcont false (value ++ [9]) (by simp [stringSpecScan])
                          (by simp [readStringBody, hp])
                      · by_cases h117 : c = 117
                        · subst h117
                          clear hcont
                          cases he1 : rest with
                          | nil =>
                            have hv1 : valid (next r) = false := by
                              rw [valid_false_iff, hnext, rem_advanceBy, hr, he1]
                              rfl
                            simp [stringSpecScan, hex4Spec, readStringBody,
                                  readHex4, hp, hv1]
                          | cons h1 e1 =>
                            have hrem1 : rem (advanceBy r 1) = h1 :: e1 := by
                              rw [rem_advanceBy, hr, he1]
                              rfl
                            have hv1 : valid (advanceBy r 1) = true := by
                              rw [valid_true_iff, hrem1]
                              simp
                            have hp1 : peek (advanceBy r 1) = h1 := by
                              rw [peek_rem, hrem1]
                              rfl
                            have hnx1 : next (advanceBy r 1) = advanceBy r 2 := by
                              rw [next_advanceBy r h]
                            cases he2 : e1 with
                            | nil =>
                              have hv2 : valid (advanceBy r 2) = false := by
                                rw [valid_false_iff, rem_advanceBy, hr, he1, he2]
                                rfl
                              simp [stringSpecScan, hex4Spec, readStringBody,
                                    readHex4, hp, hnext, hv1, hp1, hnx1, hv2]
                            | cons h2 e2 =>
                              have hrem2 : rem (advanceBy r 2) = h2 :: e2 := by
                                rw [rem_advanceBy, hr, he1, he2]
                                rfl
                              have hv2 : valid (advanceBy r 2) = true := by
                                rw [valid_true_iff, hrem2]
                                simp
                              have hp2 : peek (advanceBy r 2) = h2 := by
                                rw [peek_rem, hrem2]
                                rfl
                              have hnx2 : next (advanceBy r 2) = advanceBy r 3 := by
                                rw [next_advanceBy r h]
                              cases he3 : e2 with
                              | nil =>
                                have hv3 : valid (advanceBy r 3) = false := by
                                  rw [valid_false_iff, rem_advanceBy, hr, he1,
                                      he2, he3]
                                  rfl
                                simp [stringSpecScan, hex4Spec, readStringBody,
                                      readHex4, hp, hnext, hv1, hp1, hnx1, hv2, hp2,
                                      hnx2, hv3]
                              | cons h3 e3 =>
                                have hrem3 : rem (advanceBy r 3) = h3 :: e3 := by
                                  rw [rem_advanceBy, hr, he1, he2, he3]
                                  rfl
                                have hv3 : valid (advanceBy r 3) = true := by
                                  rw [valid_true_iff, hrem3]
                                  simp
                                have hp3 : peek (advanceBy r 3) = h3 := by
                                  rw [peek_rem, hrem3]
                                  rfl
                                have hnx3 : next (advanceBy r 3) = advanceBy r 4 := by
                                  rw [next_advanceBy r h]
                                cases he4 : e3 with
                                | nil =>
                                  have hv4 : valid (advanceBy r 4) = false := by
                                    rw [valid_false_iff, rem_advanceBy, hr, he1,
                                        he2, he3, he4]
                                    rfl
                                  simp [stringSpecScan, hex4Spec, readStringBody,
                                        readHex4, hp, hnext, hv1, hp1, hnx1, hv2,
                                        hp2, hnx2, hv3, hp3, hnx3, hv4]
                                | cons h4 e4 =>
                                  have hrem4 : rem (advanceBy r 4) = h4 :: e4 := by
                                    rw [rem_advanceBy, hr, he1, he2, he3, he4]
                                    rfl
                                  have hv4 : valid (advanceBy r 4) = true := by
                                    rw [valid_true_iff, hrem4]
                                    simp
                                  have hp4 : peek (advanceBy r 4) = h4 := by
                                    rw [peek_rem, hrem4]
                                    rfl
                                  by_cases hx1 : isxdigit h1 = true
                                  · by_cases hx2 : isxdigit h2 = true
                                    · by_cases hx3 : isxdigit h3 = true
                                      · by_cases hx4 : isxdigit h4 = true
                                        · have hhex : readHex4 r =
                                              .ok (((hexVal h1 * 16 + hexVal h2) * 16 +
                                                    hexVal h3) * 16 + hexVal h4,
                                                   advanceBy r 4) := by
                                            simp [readHex4, hnext, hnx1, hnx2, hnx3,
                                                  hv1, hv2, hv3, hv4, hp1, hp2, hp3,
                                                  hp4, hx1, hx2, hx3, hx4]
                                          have hsc : stringSpecScan quote true value
                                              (117 :: h1 :: h2 :: h3 :: h4 :: e4) =
                                              stringSpecScan quote false
                                                (value ++ utf8Encode
                                                  (((hexVal h1 * 16 + hexVal h2) * 16 +
                                                    hexVal h3) * 16 + hexVal h4)) e4 := by
                                            simp [stringSpecScan, hex4Spec,
                                                  hx1, hx2, hx3, hx4]
                                          have hcodeEq : readStringBody (fuel + 1)
                                              quote true value r =
                                              (if valid (next (advanceBy r 4)) then
                                                 readStringBody fuel quote false
                                                   (value ++ utf8Encode
                                                     (((hexVal h1 * 16 + hexVal h2) * 16 +
                                                       hexVal h3) * 16 + hexVal h4))
                                                   (next (advanceBy r 4))
                                               else stringClose quote
                                                 (value ++ utf8Encode
                                                   (((hexVal h1 * 16 + hexVal h2) * 16 +
                                                     hexVal h3) * 16 + hexVal h4))
                                                 (next (advanceBy r 4))) := by
                                            simp [readStringBody, hp, hhex]
                                          have hlb4 : (h4 :: e4).length ≤ fuel := by
                                            rw [hr, he1, he2, he3, he4] at hf
                                            simp only [List.length_cons] at hf ⊢
                                            omega
                                          have hst := hstep false
                                            (value ++ utf8Encode
                                              (((hexVal h1 * 16 + hexVal h2) * 16 +
                                                hexVal h3) * 16 + hexVal h4))
                                            (advanceBy r 4) (h4 :: e4)
                                            (by rw [fileOpen_advanceBy]; exact h)
                                            hrem4 hlb4
                                          have hd1 : (h4 :: e4).drop 1 = e4 := rfl
                                          rw [hd1] at hst
                                          rw [hsc, hcodeEq]
                                          cases hscan : stringSpecScan quote false
                                              (value ++ utf8Encode
                                                (((hexVal h1 * 16 + hexVal h2) * 16 +
                                                  hexVal h3) * 16 + hexVal h4)) e4 with
                                          | ok pr =>
                                            obtain ⟨v, rest3⟩ := pr
                                            rw [hscan] at hst
                                            dsimp only at hst ⊢
                                            obtain ⟨hle, hcode2⟩ := hst
                                            simp only [List.length_cons] at hle
                                            have hlt2 : rest3.length <
                                                (117 :: h1 :: h2 :: h3 :: h4 :: e4).length := by
                                              simp only [List.length_cons]
                                              omega
                                            refine ⟨hlt2, ?_⟩
                                            have harith2 :
                                                4 + ((h4 :: e4).length - rest3.length) =
                                                (117 :: h1 :: h2 :: h3 :: h4 :: e4).length -
                                                  rest3.length := by
                                              simp only [List.length_cons]
                                              omega
                                            rw [hcode2, advanceBy_advanceBy, harith2]
                                          | error e =>
                                            rw [hscan] at hst
                                            exact hst
                                        · simp [stringSpecScan, hex4Spec,
                                                readStringBody, readHex4, hp, hnext,
                                                hv1, hp1, hnx1, hv2, hp2, hnx2, hv3,
                                                hp3, hnx3, hv4, hp4, hx1, hx2, hx3,
                                                hx4]
                                      · simp [stringSpecScan, hex4Spec,
                                              readStringBody, readHex4, hp, hnext,
                                              hv1, hp1, hnx1, hv2, hp2, hnx2, hv3,
                                              hp3, hnx3, hx1, hx2, hx3]
                                    · simp [stringSpecScan, hex4Spec,
                                            readStringBody, readHex4, hp, hnext, hv1,
                                            hp1, hnx1, hv2, hp2, hnx2, hx1, hx2]
                                  · simp [stringSpecScan, hex4Spec,
                                          readStringBody, readHex4, hp, hnext, hv1,
                                          hp1, hnx1, hx1]
                        · have hbs : ∀ b : Nat, c ≠ b → (c == b) = false := by
                            intro b hcb
                            simp [hcb]
                          simp [stringSpecScan, readStringBody, hp, h34, h92, h47,
                                h98, h102, h110, h114, h116, h117, hbs 34 h34,
                                hbs 92 h92, hbs 47 h47, hbs 98 h98, hbs 102 h102,
                                hbs 110 h110, hbs 114 h114, hbs 116 h116,
                                hbs 117 h117]

theorem readStringRun_eq (fuel : Nat) (r : Reader) (h : r.fileOpen = false)
    {q : Nat} {t : List Nat} (hr : rem r = q :: t) (hf : t.length + 1 ≤ fuel) :
    match stringSpecScan q false [] t with
    | .ok (v, rest2) =>
        rest2.length < t.length ∧
        readStringRun fuel r =
          .ok (v, advanceBy r (1 + (t.length - rest2.length)))
    | .error e => readStringRun fuel r = .error e := by
  have hp : peek r = q := peek_of_rem_cons hr
  have hnext : next r = advanceBy r 1 := next_bufferOnly r h
  have hrem1 : rem (advanceBy r 1) = t := by rw [rem_advanceBy, hr]; rfl
  have hbody := readStringBody_eq fuel q false [] (advanceBy r 1) h
    (by simp) (by rw [hrem1]; omega)
  rw [hrem1] at hbody
  have hrun : readStringRun fuel r = readStringBody fuel q false [] (advanceBy r 1) := by
    simp only [readStringRun, hp, hnext]
  cases hscan : stringSpecScan q false [] t with
  | ok pr =>
    obtain ⟨v, rest2⟩ := pr
    rw [hscan] at hbody
    dsimp only at hbody ⊢
    obtain ⟨hlt, hcode⟩ := hbody
    refine ⟨hlt, ?_⟩
    rw [hrun, hcode, advanceBy_advanceBy]
  | error e =>
    rw [hscan] at hbody
    rw [hrun, hbody]

theorem stringSpecScan_stringErr (n : Nat) : ∀ (l : List Nat), l.length ≤ n →
    ∀ (quote : Nat) (isB : Bool) (value : List Nat) (e : RError),
    stringSpecScan quote isB value l = .error e →
    ∃ msg, e = RError.stringErr msg := by
  induction n with
  | zero =>
    intro l hl quote isB value e hscan
    have hnil : l = [] := by
      cases l with
      | nil => rfl
      | cons a t => simp at hl
    subst hnil
    cases isB <;>
      (simp only [stringSpecScan, Except.error.injEq] at hscan
       exact ⟨_, hscan.symm⟩)
  | succ n ihn =>
    intro l hl quote isB value e hscan
    cases l with
    | nil =>
      cases isB <;>
        (simp only [stringSpecScan, Except.error.injEq] at hscan
         exact ⟨_, hscan.symm⟩)
    | cons c rest =>
      have hrl : rest.length ≤ n := by
        simp only [List.length_cons] at hl
        omega
      have hrd : (rest.drop 4).length ≤ n := by
        simp only [List.length_drop]
        omega
      cases isB with
      | true =>
        simp only [stringSpecScan] at hscan
        repeat' split at hscan
        all_goals try (simp only [Except.error.injEq] at hscan
                       exact ⟨_, hscan.symm⟩)
        all_goals exact ihn _ (by assumption) _ _ _ _ hscan
      | false =>
        simp only [stringSpecScan] at hscan
        repeat' split at hscan
        all_goals first
          | exact ihn _ hrl _ _ _ _ hscan
          | simp at hscan

theorem numSpecInt_numberFormat {l : List Nat} {e : RError}
    (h : numSpecInt l = .error e) : ∃ msg, e = RError.numberFormat msg := by
  unfold numSpecInt at h
  repeat' split at h
  all_goals try (simp only [Except.error.injEq] at h)
  all_goals first
    | exact ⟨_, h.symm⟩
    | simp at h

theorem numSpecFrac_numberFormat {l : List Nat} {e : RError}
    (h : numSpecFrac l = .error e) : ∃ msg, e = RError.numberFormat msg := by
  unfold numSpecFrac at h
  repeat' split at h
  all_goals try (simp only [Except.error.injEq] at h)
  all_goals first
    | exact ⟨_, h.symm⟩
    | simp at h

theorem numSpecExp_numberFormat {l : List Nat} {e : RError}
    (h : numSpecExp l = .error e) : ∃ msg, e = RError.numberFormat msg := by
  cases l with
  | nil => simp [numSpecExp] at h
  | cons c rest =>
    by_cases hc : c = 101 ∨ c = 69
    · simp only [numSpecExp, if_pos hc] at h
      split at h
      · split at h
        · simp at h
        · simp only [Except.error.injEq] at h
          exact ⟨_, h.symm⟩
      · simp only [Except.error.injEq] at h
        exact ⟨_, h.symm⟩
    · simp only [numSpecExp, if_neg hc] at h
      simp at h

theorem numSpec_numberFormat {l : List Nat} {e : RError}
    (h : numSpec l = .error e) : ∃ msg, e = RError.numberFormat msg := by
  unfold numSpec at h
  repeat' split at h
  all_goals first
    | (simp only [Except.error.injEq] at h
       subst h
       first
         | exact numSpecInt_numberFormat (by assumption)
         | exact numSpecFrac_numberFormat (by assumption)
         | exact numSpecExp_numberFormat (by assumption))
    | simp at h

theorem rem_length_advanceBy (r : Reader) (n : Nat) :
    (rem (advanceBy r n)).length = (rem r).length - n := by
  rw [rem_advanceBy, List.length_drop]

theorem rem_le_defaultFuel (r : Reader) :
    (rem r).length + 2 ≤ defaultFuel r := by
  have hlen : (rem r).length ≤ r.buffer.length := by
    rw [rem, List.length_drop]
    omega
  unfold defaultFuel
  omega

theorem takeWhile_eq_take (p : Nat → Bool) (l : List Nat) :
    l.takeWhile p = l.take (l.takeWhile p).length := by
  induction l with
  | nil => simp
  | cons a t ih =>
    by_cases hp : p a
    · simp [List.takeWhile_cons_of_pos hp]
      exact ih
    · simp [List.takeWhile_cons_of_neg hp]

theorem numSpec_kind {l : List Nat} {K : TokenKind} {lex rest : List Nat}
    (h : numSpec l = .ok (K, lex, rest)) :
    K = TokenKind.integer ∨ K = TokenKind.floating := by
  unfold numSpec at h
  repeat' split at h
  all_goals first
    | (simp only [Except.ok.injEq, Prod.mk.injEq] at h
       exact Or.inl h.1.symm)
    | (simp only [Except.ok.injEq, Prod.mk.injEq] at h
       exact Or.inr h.1.symm)
    | exact absurd h (by simp)

theorem isEmpty_false_of_ne {l : List Nat} (h : l ≠ []) : l.isEmpty = false := by
  cases l with
  | nil => exact absurd rfl h
  | cons a t => rfl

theorem nextToken_progress (r : Reader) (h : r.fileOpen = false)
    (hv : valid r = true) :
    (∃ tok lex r2, nextToken r = .ok (tok, lex, r2) ∧ tok.kind ≠ .eof ∧
       r2.fileOpen = false ∧ r2.buffer = r.buffer ∧ r.shift < r2.shift ∧
       (rem r2).length < (rem r).length) ∨
    (∃ msg, nextToken r = .error (.numberFormat msg) ∨
            nextToken r = .error (.stringErr msg)) := by
  obtain ⟨c, t, hr⟩ : ∃ c t, rem r = c :: t := by
    cases hrr : rem r with
    | nil => exact absurd ((valid_false_iff r).mpr hrr) (by simp [hv])
    | cons c t => exact ⟨c, t, rfl⟩
  have hp : peek r = c := peek_of_rem_cons hr
  have hnext : next r = advanceBy r 1 := next_bufferOnly r h
  have hlen1 : 0 < (rem r).length := by rw [hr]; simp
  have hseek : ∀ (K : TokenKind),
      nextToken r = .ok ({ kind := K, line := r.line, col := r.col }, [c],
        advanceBy r 1) → K ≠ .eof →
      (∃ tok lex r2, nextToken r = .ok (tok, lex, r2) ∧ tok.kind ≠ .eof ∧
         r2.fileOpen = false ∧ r2.buffer = r.buffer ∧ r.shift < r2.shift ∧
         (rem r2).length < (rem r).length) ∨
      (∃ msg, nextToken r = .error (.numberFormat msg) ∨
              nextToken r = .error (.stringErr msg)) := by
    intro K hnt hK
    left
    refine ⟨_, _, _, hnt, hK, h, rfl, by simp [shift_advanceBy], ?_⟩
    rw [rem_length_advanceBy]
    omega
  have hok : ∀ (K : TokenKind) (lex : List Nat) (k : Nat),
      nextToken r = .ok ({ kind := K, line := r.line, col := r.col }, lex,
        advanceBy r k) → K ≠ .eof → 1 ≤ k →
      (∃ tok lex2 r2, nextToken r = .ok (tok, lex2, r2) ∧ tok.kind ≠ .eof ∧
         r2.fileOpen = false ∧ r2.buffer = r.buffer ∧ r.shift < r2.shift ∧
         (rem r2).length < (rem r).length) ∨
      (∃ msg, nextToken r = .error (.numberFormat msg) ∨
              nextToken r = .error (.stringErr msg)) := by
    intro K lex k hnt hK hk
    left
    refine ⟨_, _, _, hnt, hK, h, rfl, by simp [shift_advanceBy]; omega, ?_⟩
    rw [rem_length_advanceBy]
    omega
  by_cases hopen : (c == 40 || c == 91 || c == 123) = true
  · exact hseek .open_bracket
      (by simp [nextToken, hv, hp, hopen, get, hnext]) (by simp)
  · by_cases hclose : (c == 41 || c == 93 || c == 125) = true
    · exact hseek .close_bracket
        (by simp [nextToken, hv, hp, hopen, hclose, get, hnext]) (by simp)
    · by_cases hsep : (c == 44 || c == 59 || c == 58) = true
      · exact hseek .separator
          (by simp [nextToken, hv, hp, hopen, hclose, hsep, get, hnext])
          (by simp)
      · by_cases hkw : (isalpha c || c == 95) = true
        · have hkr := readKeywordRun_eq (defaultFuel r) r h hr
            (by have := rem_le_defaultFuel r; rw [hr] at this; simp at this; omega)
          exact hok .keyword (c :: t.takeWhile (fun b => isalnum b || b == 95))
            (1 + (t.takeWhile (fun b => isalnum b || b == 95)).length)
            (by simp [nextToken, hv, hp, hopen, hclose, hsep, hkw, hkr])
            (by simp) (by omega)
        · by_cases hdig : isdigit c = true
          · have hrn := readNumber_eq (defaultFuel r) r h
              (by have := rem_le_defaultFuel r; omega)
            cases hnum : numSpec (rem r) with
            | ok pr =>
              obtain ⟨K, lex, rest2⟩ := pr
              rw [hnum] at hrn
              dsimp only at hrn
              obtain ⟨hne, happ, hcode⟩ := hrn
              have hie : lex.isEmpty = false := isEmpty_false_of_ne hne
              have hKne : K ≠ TokenKind.eof := by
                rcases numSpec_kind hnum with hK | hK <;> simp [hK]
              have hlex1 : 1 ≤ lex.length := by
                cases lex with
                | nil => exact absurd rfl hne
                | cons a t2 => simp
              exact hok K lex lex.length
                (by simp [nextToken, hv, hp, hopen, hclose, hsep, hkw, hdig,
                          hcode, hie])
                hKne hlex1
            | error e =>
              rw [hnum] at hrn
              right
              obtain ⟨msg, hmsg⟩ := numSpec_numberFormat hnum
              subst hmsg
              exact ⟨msg, Or.inl (by
                simp [nextToken, hv, hp, hopen, hclose, hsep, hkw, hdig, hrn])⟩
          · by_cases hquo : (c == 39 || c == 34) = true
            · have hsr := readStringRun_eq (defaultFuel r) r h hr
                (by have := rem_le_defaultFuel r; rw [hr] at this
                    simp at this; omega)
              cases hscan : stringSpecScan c false [] t with
              | ok pr =>
                obtain ⟨v, rest2⟩ := pr
                rw [hscan] at hsr
                dsimp only at hsr
                obtain ⟨hlt, hcode⟩ := hsr
                by_cases hve : v = []
                · subst hve
                  have hnx2 : next (advanceBy r (1 + (t.length - rest2.length))) =
                      advanceBy r (1 + (t.length - rest2.length) + 1) := by
                    rw [next_advanceBy r h]
                  exact hok .string [peek (advanceBy r (1 + (t.length - rest2.length)))]
                    (1 + (t.length - rest2.length) + 1)
                    (by simp [nextToken, hv, hp, hopen, hclose, hsep, hkw, hdig,
                              hquo, hcode, get, hnx2])
                    (by simp) (by omega)
                · have hie : v.isEmpty = false := isEmpty_false_of_ne hve
                  exact hok .string v (1 + (t.length - rest2.length))
                    (by simp [nextToken, hv, hp, hopen, hclose, hsep, hkw, hdig,
                              hquo, hcode, hie])
                    (by simp) (by omega)
              | error e =>
                rw [hscan] at hsr
                right
                obtain ⟨msg, hmsg⟩ := stringSpecScan_stringErr t.length t
                  (le_refl _) c false [] e hscan
                subst hmsg
                exact ⟨msg, Or.inr (by
                  simp [nextToken, hv, hp, hopen, hclose, hsep, hkw, hdig, hquo,
                        hsr])⟩
            · by_cases hws : isspace c = true
              · have hww := readWhitespace_eq (defaultFuel r) r h
                  (by have := rem_le_defaultFuel r; omega)
                rw [hr] at hww
                have htw : (c :: t).takeWhile isspace =
                    c :: t.takeWhile isspace := List.takeWhile_cons_of_pos hws
                rw [htw] at hww
                have hnt : nextToken r = .ok
                    ({ kind := .whitespace, line := r.line, col := r.col },
                     c :: t.takeWhile isspace,
                     wsAdvance r (c :: t.takeWhile isspace)) := by
                  simp [nextToken, hv, hp, hopen, hclose, hsep, hkw, hdig, hquo,
                        hws, hww]
                left
                refine ⟨_, _, _, hnt, by simp, h, rfl, ?_, ?_⟩
                · simp [wsAdvance]
                · rw [rem_wsAdvance, List.length_drop]
                  simp only [List.length_cons]
                  omega
              · exact hseek .special_character
                  (by simp [nextToken, hv, hp, hopen, hclose, hsep, hkw, hdig,
                            hquo, hws, get, hnext])
                  (by simp)

theorem rem_shift_add (r : Reader) {r2 : Reader} {k : Nat}
    (hb : r2.buffer = r.buffer) (hs : r2.shift = r.shift + k) :
    rem r2 = (rem r).drop k := by
  rw [rem, rem, hb, hs, List.drop_drop, Nat.add_comm]

theorem nextToken_take (r : Reader) (h : r.fileOpen = false)
    (hv : valid r = true) (hq : (peek r == 39 || peek r == 34) = false) :
    ∀ tok lex r2, nextToken r = .ok (tok, lex, r2) →
      ∃ k, 1 ≤ k ∧ k ≤ (rem r).length ∧ lex = (rem r).take k ∧
        r2.fileOpen = false ∧ r2.buffer = r.buffer ∧
        r2.shift = r.shift + k := by
  obtain ⟨c, t, hr⟩ : ∃ c t, rem r = c :: t := by
    cases hrr : rem r with
    | nil => exact absurd ((valid_false_iff r).mpr hrr) (by simp [hv])
    | cons c t => exact ⟨c, t, rfl⟩
  have hp : peek r = c := peek_of_rem_cons hr
  have hnext : next r = advanceBy r 1 := next_bufferOnly r h
  intro tok lex r2 hgiven
  have hone : nextToken r = .ok (tok, lex, r2) →
      ∀ (K : TokenKind), nextToken r =
        .ok ({ kind := K, line := r.line, col := r.col }, [c], advanceBy r 1) →
      ∃ k, 1 ≤ k ∧ k ≤ (rem r).length ∧ lex = (rem r).take k ∧
        r2.fileOpen = false ∧ r2.buffer = r.buffer ∧
        r2.shift = r.shift + k := by
    intro hg K hnt
    rw [hnt] at hg
    simp only [Except.ok.injEq, Prod.mk.injEq] at hg
    obtain ⟨-, hlex, hr2⟩ := hg
    refine ⟨1, le_refl 1, by rw [hr]; simp, ?_, ?_, ?_, ?_⟩
    · rw [← hlex, hr]
      rfl
    · rw [← hr2]
      exact h
    · rw [← hr2]
      rfl
    · rw [← hr2]
      rfl
  by_cases hopen : (c == 40 || c == 91 || c == 123) = true
  · exact hone hgiven .open_bracket
      (by simp [nextToken, hv, hp, hopen, get, hnext])
  · by_cases hclose : (c == 41 || c == 93 || c == 125) = true
    · exact hone hgiven .close_bracket
        (by simp [nextToken, hv, hp, hopen, hclose, get, hnext])
    · by_cases hsep : (c == 44 || c == 59 || c == 58) = true
      · exact hone hgiven .separator
          (by simp [nextToken, hv, hp, hopen, hclose, hsep, get, hnext])
      · by_cases hkw : (isalpha c || c == 95) = true
        · have hkr := readKeywordRun_eq (defaultFuel r) r h hr
            (by have := rem_le_defaultFuel r; rw [hr] at this; simp at this
                omega)
          have hnt : nextToken r = .ok
              ({ kind := .keyword, line := r.line, col := r.col },
               c :: t.takeWhile (fun b => isalnum b || b == 95),
               advanceBy r
                 (1 + (t.takeWhile (fun b => isalnum b || b == 95)).length)) := by
            simp [nextToken, hv, hp, hopen, hclose, hsep, hkw, hkr]
          rw [hnt] at hgiven
          simp only [Except.ok.injEq, Prod.mk.injEq] at hgiven
          obtain ⟨-, hlex, hr2⟩ := hgiven
          have htl : (t.takeWhile (fun b => isalnum b || b == 95)).length ≤
              t.length := by
            rw [takeWhile_eq_take, List.length_take]
            exact min_le_right _ _
          refine ⟨1 + (t.takeWhile (fun b => isalnum b || b == 95)).length,
            by omega, by rw [hr]; simp only [List.length_cons]; omega,
            ?_, ?_, ?_, ?_⟩
          · rw [← hlex, hr, Nat.add_comm, List.take_succ_cons]
            congr 1
            exact takeWhile_eq_take _ t
          · rw [← hr2]
            exact h
          · rw [← hr2]
            rfl
          · rw [← hr2]
            rfl
        · by_cases hdig : isdigit c = true
          · have hrn := readNumber_eq (defaultFuel r) r h
              (by have := rem_le_defaultFuel r; omega)
            cases hnum : numSpec (rem r) with
            | ok pr =>
              obtain ⟨K, nlex, rest2⟩ := pr
              rw [hnum] at hrn
              dsimp only at hrn
              obtain ⟨hne, happ, hcode⟩ := hrn
              have hie : nlex.isEmpty = false := isEmpty_false_of_ne hne
              have hnt : nextToken r = .ok
                  ({ kind := K, line := r.line, col := r.col }, nlex,
                   advanceBy r nlex.length) := by
                simp [nextToken, hv, hp, hopen, hclose, hsep, hkw, hdig,
                      hcode, hie]
              rw [hnt] at hgiven
              simp only [Except.ok.injEq, Prod.mk.injEq] at hgiven
              obtain ⟨-, hlex, hr2⟩ := hgiven
              have hlen : nlex.length + rest2.length = (rem r).length := by
                rw [← happ, List.length_append]
              refine ⟨nlex.length,
                by cases nlex with
                   | nil => exact absurd rfl hne
                   | cons a t2 => simp,
                by omega, ?_, ?_, ?_, ?_⟩
              · rw [← hlex, ← happ, List.take_left]
              · rw [← hr2]
                exact h
              · rw [← hr2]
                rfl
              · rw [← hr2]
                rfl
            | error e =>
              rw [hnum] at hrn
              have hnt : nextToken r = .error e := by
                simp [nextToken, hv, hp, hopen, hclose, hsep, hkw, hdig, hrn]
              rw [hnt] at hgiven
              exact absurd hgiven (by simp)
          · have hquo : (c == 39 || c == 34) = false := by rw [← hp]; exact hq
            by_cases hws : isspace c = true
            · have hww := readWhitespace_eq (defaultFuel r) r h
                (by have := rem_le_defaultFuel r; omega)
              rw [hr] at hww
              have htw : (c :: t).takeWhile isspace =
                  c :: t.takeWhile isspace := List.takeWhile_cons_of_pos hws
              rw [htw] at hww
              have hnt : nextToken r = .ok
                  ({ kind := .whitespace, line := r.line, col := r.col },
                   c :: t.takeWhile isspace,
                   wsAdvance r (c :: t.takeWhile isspace)) := by
                simp [nextToken, hv, hp, hopen, hclose, hsep, hkw, hdig, hquo,
                      hws, hww]
              rw [hnt] at hgiven
              simp only [Except.ok.injEq, Prod.mk.injEq] at hgiven
              obtain ⟨-, hlex, hr2⟩ := hgiven
              have htl : (t.takeWhile isspace).length ≤ t.length := by
                rw [takeWhile_eq_take, List.length_take]
                exact min_le_right _ _
              refine ⟨(c :: t.takeWhile isspace).length,
                by simp, by rw [hr]; simp only [List.length_cons]; omega,
                ?_, ?_, ?_, ?_⟩
              · rw [← hlex, hr]
                simp only [List.length_cons, List.take_succ_cons]
                congr 1
                exact takeWhile_eq_take _ t
              · rw [← hr2]
                exact h
              · rw [← hr2]
                rfl
              · rw [← hr2]
                simp [wsAdvance]
            · exact hone hgiven .special_character
                (by simp [nextToken, hv, hp, hopen, hclose, hsep, hkw, hdig,
                          hquo, hws, get, hnext])

theorem nextToken_eof (r : Reader) (hv : valid r = false) :
    nextToken r = .ok ({ kind := .eof, line := r.line, col := r.col }, [], r) := by
  simp [nextToken, hv]

theorem nextToken_ok_facts (r : Reader) (h : r.fileOpen = false)
    (hv : valid r = true) {tok : Token} {lex : List Nat} {r2 : Reader}
    (hnt : nextToken r = .ok (tok, lex, r2)) :
    tok.kind ≠ .eof ∧ r2.fileOpen = false ∧ r2.buffer = r.buffer ∧
    r.shift < r2.shift ∧ (rem r2).length < (rem r).length := by
  rcases nextToken_progress r h hv with
    ⟨tok', lex', r2', hnt', hk, hf2, hb2, hs2, hl2⟩ | ⟨msg, hmsg | hmsg⟩
  · rw [hnt] at hnt'
    simp only [Except.ok.injEq, Prod.mk.injEq] at hnt'
    obtain ⟨htok, -, hr2⟩ := hnt'
    subst htok
    subst hr2
    exact ⟨hk, hf2, hb2, hs2, hl2⟩
  · rw [hnt] at hmsg
    exact absurd hmsg (by simp)
  · rw [hnt] at hmsg
    exact absurd hmsg (by simp)

theorem nextToken_error_kind (r : Reader) (h : r.fileOpen = false)
    {e : RError} (hnt : nextToken r = .error e) :
    ∃ msg, e = .numberFormat msg ∨ e = .stringErr msg := by
  cases hv : valid r with
  | false =>
    rw [nextToken_eof r hv] at hnt
    exact absurd hnt (by simp)
  | true =>
    rcases nextToken_progress r h hv with
      ⟨tok', lex', r2', hnt', -⟩ | ⟨msg, hmsg | hmsg⟩
    · rw [hnt] at hnt'
      exact absurd hnt' (by simp)
    · rw [hnt] at hmsg
      simp only [Except.error.injEq] at hmsg
      exact ⟨msg, Or.inl hmsg⟩
    · rw [hnt] at hmsg
      simp only [Except.error.injEq] at hmsg
      exact ⟨msg, Or.inr hmsg⟩

theorem runTokens_flatten : ∀ (fuel : Nat) (r : Reader)
    (lexs : List (List Nat)), r.fileOpen = false →
    (∀ b ∈ rem r, b ≠ 39 ∧ b ≠ 34) →
    runTokens fuel r = .ok lexs → lexs.flatten = rem r := by
  intro fuel
  induction fuel with
  | zero =>
    intro r lexs h hnq hrun
    simp [runTokens] at hrun
  | succ fuel ih =>
    intro r lexs h hnq hrun
    cases hv : valid r with
    | false =>
      have hrem : rem r = [] := (valid_false_iff r).mp hv
      rw [runTokens, nextToken_eof r hv] at hrun
      simp at hrun
      subst hrun
      rw [hrem]
      rfl
    | true =>
      cases hnt : nextToken r with
      | error e =>
        rw [runTokens, hnt] at hrun
        exact absurd hrun (by simp)
      | ok pr =>
        obtain ⟨tok, lex, r2⟩ := pr
        obtain ⟨hk, -, -, -, -⟩ := nextToken_ok_facts r h hv hnt
        have hq : (peek r == 39 || peek r == 34) = false := by
          obtain ⟨c, t, hr⟩ : ∃ c t, rem r = c :: t := by
            cases hrr : rem r with
            | nil => exact absurd ((valid_false_iff r).mpr hrr) (by simp [hv])
            | cons c t => exact ⟨c, t, rfl⟩
          have hc := hnq c (by rw [hr]; simp)
          rw [peek_of_rem_cons hr]
          simp [hc.1, hc.2]
        obtain ⟨k, hk1, hkle, hlex, hf2, hb2, hs2⟩ :=
          nextToken_take r h hv hq tok lex r2 hnt
        have hrem2 : rem r2 = (rem r).drop k := rem_shift_add r hb2 hs2
        have hkind : (tok.kind == TokenKind.eof) = false := by
          simp only [beq_eq_false_iff_ne, ne_eq]
          exact hk
        rw [runTokens, hnt] at hrun
        simp only [hkind, Bool.false_eq_true, if_false] at hrun
        cases hrec : runTokens fuel r2 with
        | error e =>
          rw [hrec] at hrun
          exact absurd hrun (by simp)
        | ok rest =>
          rw [hrec] at hrun
          simp only [Except.ok.injEq] at hrun
          have hrest : rest.flatten = rem r2 := by
            refine ih r2 rest hf2 ?_ hrec
            intro b hb
            exact hnq b (by rw [hrem2] at hb; exact List.drop_subset _ _ hb)
          rw [← hrun]
          simp only [List.flatten_cons]
          rw [hrest, hrem2, hlex, List.take_append_drop]

theorem runTokens_no_fuelOut : ∀ (fuel : Nat) (r : Reader),
    r.fileOpen = false → (rem r).length < fuel →
    runTokens fuel r ≠ .error .fuelOut := by
  intro fuel
  induction fuel with
  | zero =>
    intro r h hlt
    omega
  | succ fuel ih =>
    intro r h hlt
    cases hv : valid r with
    | false =>
      rw [runTokens, nextToken_eof r hv]
      simp
    | true =>
      cases hnt : nextToken r with
      | error e =>
        rw [runTokens, hnt]
        obtain ⟨msg, hmsg | hmsg⟩ := nextToken_error_kind r h hnt <;>
          simp [hmsg]
      | ok pr =>
        obtain ⟨tok, lex, r2⟩ := pr
        obtain ⟨hk, hf2, -, -, hl2⟩ := nextToken_ok_facts r h hv hnt
        have hkind : (tok.kind == TokenKind.eof) = false := by
          simp only [beq_eq_false_iff_ne, ne_eq]
          exact hk
        rw [runTokens, hnt]
        simp only [hkind]
        cases hrec : runTokens fuel r2 with
        | error e =>
          have hne := ih r2 hf2 (by omega)
          rw [hrec] at hne
          simp only [Bool.false_eq_true, if_false]
          intro hcon
          simp only [Except.error.injEq] at hcon
          exact hne (by rw [hcon])
        | ok rest =>
          simp

theorem stringSpecScan_error_cases (n : Nat) : ∀ (l : List Nat),
    l.length ≤ n → ∀ (quote : Nat) (isB : Bool) (value : List Nat)
    (e : RError), stringSpecScan quote isB value l = .error e →
    e = .stringErr "invalid escape sequence" ∨
    e = .stringErr "invalid Unicode escape sequence" ∨
    e = .stringErr "missing closing quote" := by
  induction n with
  | zero =>
    intro l hl quote isB value e hscan
    have hnil : l = [] := by
      cases l with
      | nil => rfl
      | cons a t => simp at hl
    subst hnil
    cases isB <;>
      (simp only [stringSpecScan, Except.error.injEq] at hscan
       simp [← hscan])
  | succ n ihn =>
    intro l hl quote isB value e hscan
    cases l with
    | nil =>
      cases isB <;>
        (simp only [stringSpecScan, Except.error.injEq] at hscan
         simp [← hscan])
    | cons c rest =>
      have hrl : rest.length ≤ n := by
        simp only [List.length_cons] at hl
        omega
      have hrd : (rest.drop 4).length ≤ n := by
        simp only [List.length_drop]
        omega
      cases isB with
      | true =>
        simp only [stringSpecScan] at hscan
        repeat' split at hscan
        all_goals try (simp only [Except.error.injEq] at hscan
                       simp [← hscan])
        all_goals exact ihn _ (by assumption) _ _ _ _ hscan
      | false =>
        simp only [stringSpecScan] at hscan
        repeat' split at hscan
        all_goals first
          | exact ihn _ hrl _ _ _ _ hscan
          | simp at hscan

theorem nextToken_number (r : Reader) (h : r.fileOpen = false)
    (hv : valid r = true) (hdig : isdigit (peek r) = true) :
    match numSpec (rem r) with
    | .ok (k, lex, _rest) =>
        nextToken r = .ok ({ kind := k, line := r.line, col := r.col }, lex,
          advanceBy r lex.length)
    | .error e => nextToken r = .error e := by
  obtain ⟨c, t, hr⟩ : ∃ c t, rem r = c :: t := by
    cases hrr : rem r with
    | nil => exact absurd ((valid_false_iff r).mpr hrr) (by simp [hv])
    | cons c t => exact ⟨c, t, rfl⟩
  have hp : peek r = c := peek_of_rem_cons hr
  have hd : isdigit c = true := by rw [← hp]; exact hdig
  have hcd : 48 ≤ c ∧ c ≤ 57 := by
    simp only [isdigit, Bool.and_eq_true, decide_eq_true_eq] at hd
    exact hd
  have hopen : (c == 40 || c == 91 || c == 123) = false := by
    simp only [Bool.or_eq_false_iff, beq_eq_false_iff_ne, ne_eq]
    omega
  have hclose : (c == 41 || c == 93 || c == 125) = false := by
    simp only [Bool.or_eq_false_iff, beq_eq_false_iff_ne, ne_eq]
    omega
  have hsep : (c == 44 || c == 59 || c == 58) = false := by
    simp only [Bool.or_eq_false_iff, beq_eq_false_iff_ne, ne_eq]
    omega
  have hkw : (isalpha c || c == 95) = false := by
    simp only [isalpha, Bool.or_eq_false_iff, Bool.and_eq_false_iff,
               beq_eq_false_iff_ne, ne_eq, decide_eq_false_iff_not, not_le]
    omega
  have hrn := readNumber_eq (defaultFuel r) r h
    (by have := rem_le_defaultFuel r; omega)
  cases hnum : numSpec (rem r) with
  | ok pr =>
    obtain ⟨K, lex, rest2⟩ := pr
    rw [hnum] at hrn
    dsimp only at hrn ⊢
    obtain ⟨hne, happ, hcode⟩ := hrn
    have hie : lex.isEmpty = false := isEmpty_false_of_ne hne
    simp [nextToken, hv, hp, hopen, hclose, hsep, hkw, hd, hcode, hie]
  | error e =>
    rw [hnum] at hrn
    dsimp only
    simp [nextToken, hv, hp, hopen, hclose, hsep, hkw, hd, hrn]

theorem nextToken_string_eval (r : Reader) (h : r.fileOpen = false)
    (hv : valid r = true) (hquo : (peek r == 39 || peek r == 34) = true) :
    (∀ e, nextToken r = .error e ↔
       stringSpecScan (peek r) false [] ((rem r).drop 1) = .error e)
    ∧ (∀ tok lex r2, nextToken r = .ok (tok, lex, r2) → r2.line = r.line) := by
  obtain ⟨c, t, hr⟩ : ∃ c t, rem r = c :: t := by
    cases hrr : rem r with
    | nil => exact absurd ((valid_false_iff r).mpr hrr) (by simp [hv])
    | cons c t => exact ⟨c, t, rfl⟩
  have hp : peek r = c := peek_of_rem_cons hr
  have hdrop : (rem r).drop 1 = t := by rw [hr]; rfl
  have hcv : c = 39 ∨ c = 34 := by
    rw [hp] at hquo
    simpa using hquo
  have hopen : (c == 40 || c == 91 || c == 123) = false := by
    rcases hcv with hcc | hcc <;> subst hcc <;> rfl
  have hclose : (c == 41 || c == 93 || c == 125) = false := by
    rcases hcv with hcc | hcc <;> subst hcc <;> rfl
  have hsep : (c == 44 || c == 59 || c == 58) = false := by
    rcases hcv with hcc | hcc <;> subst hcc <;> rfl
  have hkw : (isalpha c || c == 95) = false := by
    rcases hcv with hcc | hcc <;> subst hcc <;> rfl
  have hd : isdigit c = false := by
    rcases hcv with hcc | hcc <;> subst hcc <;> rfl
  have hquoc : (c == 39 || c == 34) = true := by rw [← hp]; exact hquo
  have hsr := readStringRun_eq (defaultFuel r) r h hr
    (by have := rem_le_defaultFuel r; rw [hr] at this; simp at this; omega)
  cases hscan : stringSpecScan c false [] t with
  | ok pr =>
    obtain ⟨v, rest2⟩ := pr
    rw [hscan] at hsr
    dsimp only at hsr
    obtain ⟨hlt, hcode⟩ := hsr
    by_cases hve : v = []
    · subst hve
      have hnx2 : next (advanceBy r (1 + (t.length - rest2.length))) =
          advanceBy r (1 + (t.length - rest2.length) + 1) := by
        rw [next_advanceBy r h]
      have hnt : nextToken r = .ok
          ({ kind := .string, line := r.line, col := r.col },
           [peek (advanceBy r (1 + (t.length - rest2.length)))],
           advanceBy r (1 + (t.length - rest2.length) + 1)) := by
        simp [nextToken, hv, hp, hopen, hclose, hsep, hkw, hd, hquoc, hcode,
              get, hnx2]
      constructor
      · intro e
        rw [hp, hdrop, hnt, hscan]
        simp
      · intro tok lex r2 hgiven
        rw [hnt] at hgiven
        simp only [Except.ok.injEq, Prod.mk.injEq] at hgiven
        obtain ⟨-, -, hr2⟩ := hgiven
        rw [← hr2]
        rfl
    · have hie : v.isEmpty = false := isEmpty_false_of_ne hve
      have hnt : nextToken r = .ok
          ({ kind := .string, line := r.line, col := r.col }, v,
           advanceBy r (1 + (t.length - rest2.length))) := by
        simp [nextToken, hv, hp, hopen, hclose, hsep, hkw, hd, hquoc, hcode,
              hie]
      constructor
      · intro e
        rw [hp, hdrop, hnt, hscan]
        simp
      · intro tok lex r2 hgiven
        rw [hnt] at hgiven
        simp only [Except.ok.injEq, Prod.mk.injEq] at hgiven
        obtain ⟨-, -, hr2⟩ := hgiven
        rw [← hr2]
        rfl
  | error e0 =>
    rw [hscan] at hsr
    have hnt : nextToken r = .error e0 := by
      simp [nextToken, hv, hp, hopen, hclose, hsep, hkw, hd, hquoc, hsr]
    constructor
    · intro e
      rw [hp, hdrop, hnt, hscan]
      simp only [Except.error.injEq]
    · intro tok lex r2 hgiven
      rw [hnt] at hgiven
      exact absurd hgiven (by simp)


/-! ## Claim theorems -/

theorem refillBuffer_shift (x : Reader) (h1 : x.fileOpen = true)
    (h2 : x.fileEof = false) : (refillBuffer x).shift = 0 := by
  rw [refillBuffer]
  simp only [h1, h2, Bool.not_true, Bool.or_self, Bool.false_eq_true, if_false]
  split <;> rfl

/-- Claim C1: for every buffer-only reader whose current byte is a digit,
`nextToken` implements the strict numeric grammar `numSpec` (integer part
a lone `0` or a nonzero digit followed by digits, optional fraction `.`
plus digits, optional exponent `e`/`E`, optional sign, digits; kind
`integer` exactly when neither fraction nor exponent is present, and a
`numberFormat` error exactly when the grammar rejects).  In particular
the inputs `0123`, `123.`, `123e`, `123E+`, `123eE` are rejected and
`0`, `73`, `0.0`, `1.5e-10`, `168E+012` are accepted with the stated
kinds. -/
theorem claim_C1 :
    (∀ r : Reader, r.fileOpen = false → valid r = true →
       isdigit (peek r) = true →
       match numSpec (rem r) with
       | .ok (k, lex, _rest) =>
           nextToken r = .ok ({ kind := k, line := r.line, col := r.col },
             lex, advanceBy r lex.length)
       | .error e => nextToken r = .error e)
    ∧ nextToken (ofString [48, 49, 50, 51]) =
        .error (.numberFormat
          "invalid number format: leading zeros are not allowed")
    ∧ nextToken (ofString [49, 50, 51, 46]) =
        .error (.numberFormat
          "invalid number format: expected digit after decimal")
    ∧ nextToken (ofString [49, 50, 51, 101]) =
        .error (.numberFormat
          "invalid number format: expected digit after exponent")
    ∧ nextToken (ofString [49, 50, 51, 69, 43]) =
        .error (.numberFormat
          "invalid number format: expected digit after exponent")
    ∧ nextToken (ofString [49, 50, 51, 101, 69]) =
        .error (.numberFormat
          "invalid number format: expected digit after exponent")
    ∧ (nextToken (ofString [48])).map (fun x => x.1.kind) = .ok .integer
    ∧ (nextToken (ofString [55, 51])).map (fun x => x.1.kind) = .ok .integer
    ∧ (nextToken (ofString [48, 46, 48])).map (fun x => x.1.kind) =
        .ok .floating
    ∧ (nextToken (ofString [49, 46, 53, 101, 45, 49, 48])).map
        (fun x => x.1.kind) = .ok .floating
    ∧ (nextToken (ofString [49, 54, 56, 69, 43, 48, 49, 50])).map
        (fun x => x.1.kind) = .ok .floating := by
  refine ⟨fun r h hv hd => nextToken_number r h hv hd,
    ?_, ?_, ?_, ?_, ?_, ?_, ?_, ?_, ?_, ?_⟩
  all_goals rfl

/-- Witness for C1 at the concrete input `73`. -/
theorem claim_C1_witness :
    (ofString [55, 51]).fileOpen = false ∧
    valid (ofString [55, 51]) = true ∧
    isdigit (peek (ofString [55, 51])) = true ∧
    (match numSpec (rem (ofString [55, 51])) with
     | .ok (k, lex, _rest) =>
         nextToken (ofString [55, 51]) =
           .ok ({ kind := k, line := (ofString [55, 51]).line,
                  col := (ofString [55, 51]).col }, lex,
                advanceBy (ofString [55, 51]) lex.length)
     | .error e => nextToken (ofString [55, 51]) = .error e) :=
  ⟨by decide, by decide, by decide,
   claim_C1.1 (ofString [55, 51]) (by decide) (by decide) (by decide)⟩

/-- Claim C2 is refuted (code bug): on input `""x` — an empty string
literal followed by one more byte — the empty-lexeme fallback at the end
of `next_token` (`if (lexeme.empty()) lexeme = get();`) consumes a third
byte, so the returned string token carries the lexeme `x` and the reader
has consumed three bytes, although the claim requires that exactly the
two quote bytes be consumed and the empty decoded value be returned. -/
theorem claim_C2 :
    nextToken (ofString [34, 34, 120]) =
      .ok ({ kind := .string, line := 0, col := 0 }, [120],
        { ofString [34, 34, 120] with col := 3, shift := 3 }) := by
  rfl

/-- Claim C3: for every input byte sequence with no quote bytes (hence
no string literals and no escape sequences), concatenating the lexeme
texts returned by successive `nextToken` calls until `eof` reproduces
the input exactly. -/
theorem claim_C3 (s : List Nat) (hnq : ∀ b ∈ s, b ≠ 34 ∧ b ≠ 39) :
    ∀ fuel lexs, runTokens fuel (ofString s) = .ok lexs →
      lexs.flatten = s := by
  intro fuel lexs hrun
  have h1 : (ofString s).fileOpen = false := by
    rw [ofString]; split <;> rfl
  have h2 : rem (ofString s) = s := by
    rw [ofString]; split <;> simp [rem]
  have h3 : ∀ b ∈ rem (ofString s), b ≠ 39 ∧ b ≠ 34 := by
    rw [h2]
    intro b hb
    exact ⟨(hnq b hb).2, (hnq b hb).1⟩
  have hmain := runTokens_flatten fuel (ofString s) lexs h1 h3 hrun
  rw [h2] at hmain
  exact hmain

/-- Witness for C3 at the concrete input `a 1;`. -/
theorem claim_C3_witness :
    (∀ b ∈ [97, 32, 49, 59], b ≠ 34 ∧ b ≠ 39) ∧
    runTokens 9 (ofString [97, 32, 49, 59]) = .ok [[97], [32], [49], [59]] ∧
    ([[97], [32], [49], [59]] : List (List Nat)).flatten =
      [97, 32, 49, 59] :=
  ⟨by decide, by rfl,
   claim_C3 [97, 32, 49, 59] (by decide) 9 [[97], [32], [49], [59]]
     (by rfl)⟩

/-- Counterexample to C4 as stated: on the input made of a single
quote, the byte `a`, a newline, the byte `b` and a closing single quote,
the newline byte is consumed inside the string literal contents, yet the
reader finishes the token with `line` still 0 — `read_string` never
touches `line` (only `col` advances, to 5).  The claim asserts `line`
increases for every consumed newline, including those inside string
contents. -/
theorem claim_C4_counterexample :
    nextToken (ofString [39, 97, 10, 98, 39]) =
      .ok ({ kind := .string, line := 0, col := 0 }, [97, 10, 98],
        { ofString [39, 97, 10, 98, 39] with col := 5, shift := 5 }) := by
  rfl

/-- Claim C4, amended: a newline consumed during a whitespace run bumps
`line` and resets `col` so that the next byte reports column 0, every
other byte consumed by the whitespace loop increments `col`, and a plain
consumption step (`next`) increments `col` and preserves `line`; bytes
consumed inside string-literal contents never change `line` (this is
where the original claim was wrong).  The concrete example holds: on
input `a\nb` the kinds are keyword, whitespace, keyword and the third
token is at line 1, column 0. -/
theorem claim_C4 :
    (∀ r : Reader, r.fileOpen = false → peek r = 10 →
       (wsStep r).line = r.line + 1 ∧ (wsStep r).col = 0 ∧
       (wsStep r).shift = r.shift + 1)
    ∧ (∀ r : Reader, r.fileOpen = false → peek r ≠ 10 →
       (wsStep r).line = r.line ∧ (wsStep r).col = r.col + 1 ∧
       (wsStep r).shift = r.shift + 1)
    ∧ (∀ r : Reader, r.fileOpen = false →
       (next r).col = r.col + 1 ∧ (next r).line = r.line)
    ∧ (∀ r : Reader, r.fileOpen = false → valid r = true →
       (peek r == 39 || peek r == 34) = true →
       ∀ tok lex r2, nextToken r = .ok (tok, lex, r2) → r2.line = r.line)
    ∧ tokensN 3 (ofString [97, 10, 98]) =
        [{ kind := .keyword, line := 0, col := 0 },
         { kind := .whitespace, line := 0, col := 1 },
         { kind := .keyword, line := 1, col := 0 }] := by
  refine ⟨?_, ?_, ?_, ?_, by decide⟩
  · intro r h hp
    rw [wsStep_eq r h hp]
    simp [wsAdvance, nlCount, colAfter]
  · intro r h hp
    rw [wsStep_eq r h (rfl : peek r = peek r)]
    simp [wsAdvance, nlCount, colAfter, hp]
  · intro r h
    rw [next_bufferOnly r h]
    exact ⟨by simp [advanceBy], rfl⟩
  · intro r h hv hq
    exact (nextToken_string_eval r h hv hq).2

/-- Witness for C4 at a concrete newline byte. -/
theorem claim_C4_witness :
    (ofString [10]).fileOpen = false ∧ peek (ofString [10]) = 10 ∧
    ((wsStep (ofString [10])).line = (ofString [10]).line + 1 ∧
     (wsStep (ofString [10])).col = 0 ∧
     (wsStep (ofString [10])).shift = (ofString [10]).shift + 1) :=
  ⟨by decide, by decide, claim_C4.1 (ofString [10]) (by decide) (by decide)⟩

/-- Claim C5 is refuted (code bug): the path constructor never assigns
`line`/`col`, so they keep their `-1` field initializers and the first
token of a file-backed reader reports position (-1, -1), not (0, 0).
The in-memory constructor does start at (0, 0) on non-empty input. -/
theorem claim_C5 :
    nextToken (ofFile [97] 4096) =
      .ok ({ kind := .special_character, line := -1, col := -1 }, [0],
        { ofFile [97] 4096 with col := 0, shift := 1 })
    ∧ nextToken (ofString [97]) =
      .ok ({ kind := .keyword, line := 0, col := 0 }, [97],
        { ofString [97] with col := 1, shift := 1 }) :=
  ⟨rfl, rfl⟩

/-- Claim C6 is refuted (code bug): `refill_buffer` reads into a window
it never allocates, so after the initial refill the first byte of the
file is not available.  With chunk size 1 on the one-byte file `a`, the
window stays empty and `valid()` is false; with the default chunk size
4096 on the file `ab`, `read` fails short, the window is resized to two
zero bytes and `peek()` yields 0, not the first file byte. -/
theorem claim_C6 :
    valid (ofFile [97] 1) = false ∧ (ofFile [97] 1).buffer = [] ∧
    (ofFile [97, 98] 4096).buffer = [0, 0] ∧
    peek (ofFile [97, 98] 4096) = 0 := by
  decide

/-- Claim C7: on a buffer-only reader positioned at a quote, `nextToken`
raises an error exactly when the string grammar `stringSpecScan` rejects
the literal body, and every such error is one of the three string
errors: invalid escape sequence (backslash followed by a byte other than
the nine escape heads), invalid Unicode escape (fewer than 4 hex digits
after `\u`), or missing closing quote (input exhausted first).  No other
string-literal input raises an error. -/
theorem claim_C7 :
    (∀ r : Reader, r.fileOpen = false → valid r = true →
       (peek r == 39 || peek r == 34) = true →
       ∀ e, nextToken r = .error e ↔
         stringSpecScan (peek r) false [] ((rem r).drop 1) = .error e)
    ∧ (∀ (l : List Nat) (quote : Nat) (isB : Bool) (value : List Nat)
         (e : RError), stringSpecScan quote isB value l = .error e →
         e = .stringErr "invalid escape sequence" ∨
         e = .stringErr "invalid Unicode escape sequence" ∨
         e = .stringErr "missing closing quote") := by
  constructor
  · intro r h hv hq
    exact (nextToken_string_eval r h hv hq).1
  · intro l quote isB value e hscan
    exact stringSpecScan_error_cases l.length l (le_refl _) quote isB value
      e hscan

/-- Witness for C7 at the concrete input consisting of a quote, a bad
escape and a closing quote. -/
theorem claim_C7_witness :
    (ofString [39, 92, 120, 39]).fileOpen = false ∧
    valid (ofString [39, 92, 120, 39]) = true ∧
    (peek (ofString [39, 92, 120, 39]) == 39 ||
      peek (ofString [39, 92, 120, 39]) == 34) = true ∧
    (∀ e, nextToken (ofString [39, 92, 120, 39]) = .error e ↔
       stringSpecScan (peek (ofString [39, 92, 120, 39])) false []
         ((rem (ofString [39, 92, 120, 39])).drop 1) = .error e) :=
  ⟨by decide, by decide, by decide,
   claim_C7.1 (ofString [39, 92, 120, 39]) (by decide) (by decide)
     (by decide)⟩

/-- Claim C8: once the reader is exhausted (`valid` is false), every
`nextToken` call returns an `eof` token carrying the current position,
with an empty lexeme, and returns the reader state itself unchanged —
so repeated calls are idempotent with no side effects. -/
theorem claim_C8 (r : Reader) (hv : valid r = false) :
    nextToken r =
      .ok ({ kind := .eof, line := r.line, col := r.col }, [], r) :=
  nextToken_eof r hv

/-- Witness for C8 on the empty in-memory reader. -/
theorem claim_C8_witness :
    valid (ofString []) = false ∧
    nextToken (ofString []) =
      .ok ({ kind := .eof, line := (ofString []).line,
             col := (ofString []).col }, [], ofString []) :=
  ⟨by decide, claim_C8 (ofString []) (by decide)⟩

/-- Claim C9: `jump_to` errs exactly when the position is negative or
the source is buffer-only and the position exceeds the window length;
the only error is the SeekError "position is out of range"; on success
the supplied line and column are stored verbatim; and a file-backed
source accepts every non-negative position, repositioning and forcing a
refill (so the window cursor restarts at 0). -/
theorem claim_C9 (r : Reader) (p l c : Int) :
    ((∃ e, jumpTo r p l c = .error e) ↔
       (p < 0 ∨ (r.fileOpen = false ∧ (r.buffer.length : Int) < p)))
    ∧ (∀ e, jumpTo r p l c = .error e →
        e = .seekErr "position is out of range")
    ∧ (∀ r2, jumpTo r p l c = .ok r2 → r2.line = l ∧ r2.col = c)
    ∧ (r.fileOpen = true → 0 ≤ p →
        ∃ r2, jumpTo r p l c = .ok r2 ∧ r2.shift = 0) := by
  by_cases hneg : p < 0
  · have hj : jumpTo r p l c =
        .error (.seekErr "position is out of range") := by
      rw [jumpTo, if_pos hneg]
    refine ⟨⟨fun _ => Or.inl hneg, fun _ => ⟨_, hj⟩⟩, ?_, ?_, ?_⟩
    · intro e he
      rw [hj] at he
      simp only [Except.error.injEq] at he
      exact he.symm
    · intro r2 h2
      rw [hj] at h2
      exact absurd h2 (by simp)
    · intro _ hp
      omega
  · by_cases hfo : r.fileOpen = true
    · have hguard : (!r.fileOpen) = false := by rw [hfo]; rfl
      have hj : jumpTo r p l c = .ok
          { refillBuffer (if r.fileFail then { r with fileEof := false }
              else { r with fileEof := false, filePos := p.toNat })
            with line := l, col := c } := by
        rw [jumpTo, if_neg hneg, if_neg (by simp [hguard])]
      refine ⟨⟨?_, ?_⟩, ?_, ?_, ?_⟩
      · rintro ⟨e, he⟩
        rw [hj] at he
        exact absurd he (by simp)
      · rintro (hc | ⟨hc, -⟩)
        · exact absurd hc hneg
        · rw [hfo] at hc
          exact absurd hc (by simp)
      · intro e he
        rw [hj] at he
        exact absurd he (by simp)
      · intro r2 h2
        rw [hj] at h2
        simp only [Except.ok.injEq] at h2
        rw [← h2]
        exact ⟨rfl, rfl⟩
      · intro _ hp
        refine ⟨_, hj, ?_⟩
        have hsh : ({ refillBuffer (if r.fileFail
              then { r with fileEof := false }
              else { r with fileEof := false, filePos := p.toNat })
            with line := l, col := c } : Reader).shift =
            (refillBuffer (if r.fileFail then { r with fileEof := false }
              else { r with fileEof := false, filePos := p.toNat })).shift :=
          rfl
        rw [hsh]
        apply refillBuffer_shift
        · split <;> exact hfo
        · split <;> rfl
    · have hfo2 : r.fileOpen = false := by
        cases hb : r.fileOpen
        · rfl
        · exact absurd hb hfo
      have hguard : (!r.fileOpen) = true := by rw [hfo2]; rfl
      by_cases hlen : r.buffer.length < p.toNat
      · have hj : jumpTo r p l c =
            .error (.seekErr "position is out of range") := by
          rw [jumpTo, if_neg hneg, if_pos (by simp [hguard])]
          simp [hlen]
        refine ⟨⟨fun _ => Or.inr ⟨hfo2, by omega⟩, fun _ => ⟨_, hj⟩⟩,
          ?_, ?_, ?_⟩
        · intro e he
          rw [hj] at he
          simp only [Except.error.injEq] at he
          exact he.symm
        · intro r2 h2
          rw [hj] at h2
          exact absurd h2 (by simp)
        · intro hof _
          rw [hfo2] at hof
          exact absurd hof (by simp)
      · have hj : jumpTo r p l c =
            .ok { r with shift := p.toNat, line := l, col := c } := by
          rw [jumpTo, if_neg hneg, if_pos (by simp [hguard])]
          simp [hlen]
        refine ⟨⟨?_, ?_⟩, ?_, ?_, ?_⟩
        · rintro ⟨e, he⟩
          rw [hj] at he
          exact absurd he (by simp)
        · rintro (hc | ⟨-, hc⟩)
          · exact absurd hc hneg
          · omega
        · intro e he
          rw [hj] at he
          exact absurd he (by simp)
        · intro r2 h2
          rw [hj] at h2
          simp only [Except.ok.injEq] at h2
          rw [← h2]
          exact ⟨rfl, rfl⟩
        · intro hof _
          rw [hfo2] at hof
          exact absurd hof (by simp)

/-- Witness for C9: a negative position errs, an in-range buffer-only
jump stores line and column verbatim, and a file-backed jump refills
with the cursor at 0. -/
theorem claim_C9_witness :
    jumpTo (ofString [97, 98]) (-1) 5 7 =
      .error (.seekErr "position is out of range") ∧
    jumpTo (ofString [97, 98]) 1 5 7 =
      .ok { ofString [97, 98] with shift := 1, line := 5, col := 7 } ∧
    (∃ r2, jumpTo (ofFile [97, 98] 4096) 0 5 7 = .ok r2 ∧ r2.shift = 0) :=
  ⟨by rfl, by rfl,
   (claim_C9 (ofFile [97, 98] 4096) 0 5 7).2.2.2 (by decide) (by decide)⟩

/-- Claim C10 (implicit progress guarantee): whenever `valid` holds at
the start of a buffer-only `nextToken` call that returns a token, the
call strictly advances the cursor (consumes at least one byte) while
keeping the same window; consequently a driver loop over a window with
n unread bytes reaches `eof` within n + 1 calls — it never runs out of
fuel. -/
theorem claim_C10 (r : Reader) (h : r.fileOpen = false) :
    (∀ tok lex r2, valid r = true → nextToken r = .ok (tok, lex, r2) →
       r.shift < r2.shift ∧ r2.buffer = r.buffer ∧ r2.fileOpen = false)
    ∧ runTokens ((rem r).length + 1) r ≠ .error .fuelOut := by
  constructor
  · intro tok lex r2 hv hnt
    obtain ⟨-, hf2, hb2, hs2, -⟩ := nextToken_ok_facts r h hv hnt
    exact ⟨hs2, hb2, hf2⟩
  · exact runTokens_no_fuelOut _ r h (by omega)

/-- Witness for C10 on a two-byte in-memory reader. -/
theorem claim_C10_witness :
    (ofString [97, 98]).fileOpen = false ∧
    runTokens ((rem (ofString [97, 98])).length + 1) (ofString [97, 98]) ≠
      .error .fuelOut :=
  ⟨by decide, (claim_C10 (ofString [97, 98]) (by decide)).2⟩

end QP
